import Mathlib

/-!
Verification of the open-agent-orchestrator core runtime.

This file gives a shallow embedding, in Lean 4, of the core components of the
`oao` Python runtime — the lifecycle state machine, the strict policy engine,
the retry engine, the execution-hash computation, the in-memory event store,
the single-execution orchestrator loop, the idempotent tool wrapper and the
DAG scheduler — and proves (or refutes) the specification claims about them.

Conventions used throughout the embedding:
* Python `int` is `Int` (unbounded); counters that the runtime only ever
  increments are still carried as `Int` to match the source.
* Wall-clock instants (`time.time()`) are modelled as `ℚ` values supplied as
  explicit parameters, since the claims quantify over elapsed time, not over
  the behaviour of the clock itself.
* A Python method that mutates `self` and may raise becomes a pure function
  returning the updated value paired with an `Except` result.
* `sha256` digests are modelled by an arbitrary function `String → String`
  applied to the exact canonical serialization the source hashes; every claim
  about hashing is a statement about the serialized payload, so it holds for
  every digest function, in particular for SHA-256.
-/

namespace Oao

/-! ## State machine (src/oao/runtime/state_machine.py) -/

inductive AgentState where
  | INIT
  | PLAN
  | EXECUTE
  | REVIEW
  | TERMINATE
  | FAILED
deriving DecidableEq, Repr

/-- `AgentState.name` in Python (`Enum.name`). -/
def AgentState.label : AgentState → String
  | .INIT => "INIT"
  | .PLAN => "PLAN"
  | .EXECUTE => "EXECUTE"
  | .REVIEW => "REVIEW"
  | .TERMINATE => "TERMINATE"
  | .FAILED => "FAILED"

/-- The `_transitions` table of `StateMachine.__init__`. -/
def transitionsTable : AgentState → List AgentState
  | .INIT => [.PLAN, .FAILED]
  | .PLAN => [.EXECUTE, .FAILED]
  | .EXECUTE => [.REVIEW, .FAILED]
  | .REVIEW => [.TERMINATE, .FAILED]
  | .TERMINATE => []
  | .FAILED => []

/-- `StateMachine` state: `current_state` and `history`.  The per-state entry
times (`state_entry_times`) are wall-clock metadata irrelevant to the claims
and are omitted. -/
structure StateMachine where
  current_state : AgentState
  history : List AgentState
deriving DecidableEq, Repr

/-- `StateMachine.__init__`: starts at INIT with `[INIT]` history. -/
def StateMachine.init : StateMachine :=
  { current_state := .INIT, history := [.INIT] }

/-- `StateMachine.transition(next_state)`: the updated machine paired with the
raised exception, if any.  On `InvalidStateTransition` the machine is returned
unchanged (the Python method raises before mutating). -/
def StateMachine.transition (m : StateMachine) (next : AgentState) :
    StateMachine × Except String Unit :=
  if next ∈ transitionsTable m.current_state then
    ({ current_state := next, history := m.history ++ [next] }, .ok ())
  else
    (m, .error ("Invalid transition from " ++ m.current_state.label ++
      " to " ++ next.label))

/-- `StateMachine.set_state(state)` (force set, used for replay hydration):
always sets `current_state`; appends to history unless the last history entry
already equals `state`. -/
def StateMachine.set_state (m : StateMachine) (s : AgentState) : StateMachine :=
  { current_state := s,
    history := if m.history.getLast? = some s then m.history else m.history ++ [s] }

/-- `StateMachine.fail()`: move to FAILED immediately, appending to history. -/
def StateMachine.fail (m : StateMachine) : StateMachine :=
  { current_state := .FAILED, history := m.history ++ [.FAILED] }

/-- `StateMachine.is_terminal()`. -/
def StateMachine.is_terminal (m : StateMachine) : Bool :=
  m.current_state = .TERMINATE ∨ m.current_state = .FAILED

/-- The eight legal `(current_state, next_state)` pairs named by the spec. -/
def legalPairs : List (AgentState × AgentState) :=
  [(.INIT, .PLAN), (.INIT, .FAILED),
   (.PLAN, .EXECUTE), (.PLAN, .FAILED),
   (.EXECUTE, .REVIEW), (.EXECUTE, .FAILED),
   (.REVIEW, .TERMINATE), (.REVIEW, .FAILED)]

/-! ## Strict policy (src/oao/policy/strict_policy.py) -/

/-- The serializable subset of the orchestrator context read by
`StrictPolicy.validate` via `context.get(key, 0)`. -/
structure PolicyContext where
  step_count : Int
  token_usage : Int
  tool_calls : Int
deriving DecidableEq, Repr

/-- `StrictPolicy`: budget configuration plus the `start_time` anchor
(`None` until `start_timer()` is called). -/
structure StrictPolicy where
  max_tokens : Int
  max_steps : Int
  max_tool_calls : Int
  timeout_seconds : Int
  start_time : Option ℚ
deriving DecidableEq, Repr

/-- `StrictPolicy.start_timer()`: anchor wall clock at `now`. -/
def StrictPolicy.start_timer (p : StrictPolicy) (now : ℚ) : StrictPolicy :=
  { p with start_time := some now }

/-- The timeout guard of `validate`: Python evaluates
`if self.start_time:` (falsy for `None` and for `0.0`) and then compares
`time.time() - self.start_time > self.timeout_seconds`. -/
def StrictPolicy.timeoutBreached (p : StrictPolicy) (now : ℚ) : Bool :=
  match p.start_time with
  | some t => decide (t ≠ 0) && decide (now - t > (p.timeout_seconds : ℚ))
  | none => false

/-- `StrictPolicy.validate(context)`: checks, in order, timeout, step budget,
token budget, tool-call budget; raises `PolicyViolation` with the
corresponding message on the first breach.  All comparisons are strict. -/
def StrictPolicy.validate (p : StrictPolicy) (now : ℚ) (c : PolicyContext) :
    Except String Unit :=
  if p.timeoutBreached now then .error "Execution timeout exceeded"
  else if c.step_count > p.max_steps then .error "Maximum execution steps exceeded"
  else if c.token_usage > p.max_tokens then .error "Maximum token limit exceeded"
  else if c.tool_calls > p.max_tool_calls then .error "Maximum tool calls exceeded"
  else .ok ()

/-! ## Retry engine (src/oao/runtime/resilience.py)

`execute_with_retry` is modelled by `retryLoop`.  The callable is a function
of the (1-based) attempt number so that one pure value describes the
behaviour of a stateful callable across attempts.  The loop returns the final
result (`.ok` value or the re-raised error), the number of times the callable
was invoked, and the list of `(attempt, error)` pairs for which the
`on_retry` hook fired, in firing order. -/

/-- One pass of the `for attempt in range(1, max_retries + 2)` loop of
`execute_with_retry`.  `attemptsLeft` is the number of further attempts after
the current one (`max_retries + 1 - attempt`).  A non-retryable error is
re-raised immediately; a retryable error with no attempts left falls out of
the loop and the last error is raised. -/
def retryLoop (f : Nat → Except String α) (retryable : String → Bool)
    (attempt : Nat) (attemptsLeft : Nat) :
    Except String α × Nat × List (Nat × String) :=
  match f attempt with
  | .ok a => (.ok a, 1, [])
  | .error e =>
    if retryable e then
      match attemptsLeft with
      | 0 => (.error e, 1, [])
      | n + 1 =>
        let rest := retryLoop f retryable (attempt + 1) n
        (rest.1, rest.2.1 + 1, (attempt, e) :: rest.2.2)
    else
      (.error e, 1, [])

/-- `execute_with_retry(func, config, on_retry)` with
`config.max_retries = maxRetries`. -/
def execute_with_retry (f : Nat → Except String α) (retryable : String → Bool)
    (maxRetries : Nat) : Except String α × Nat × List (Nat × String) :=
  retryLoop f retryable 1 maxRetries

/-! ## Canonical serialization and execution hash
(src/oao/runtime/hashing.py, src/oao/runtime/execution.py)

`Execution.create` builds `policy_config = tuple(sorted(policy_dict.items()))`
and `agent_config = tuple(sorted(agent_dict.items()))`, then hashes
`json.dumps(hash_data, sort_keys=True, separators=(",", ":"))` with SHA-256.
The serializer below reproduces that canonical JSON for the fixed shape of
`hash_data` (five top-level keys, flat `policy` / `agent` objects, a list of
flat tool descriptors); `sort_keys=True` is modelled by sorting every object
by key before emitting it.  The digest is an arbitrary `String → String`. -/

/-- A scalar JSON value as it occurs in the configuration mappings. -/
inductive ConfigVal where
  | str (s : String)
  | int (n : Int)
  | rat (q : ℚ)
  | bool (b : Bool)
deriving DecidableEq, Repr

/-- JSON rendering of a string (escaping is irrelevant to the claims: the
rendering is a function of the string). -/
def jsonStr (s : String) : String := "\"" ++ s ++ "\""

def serializeConfigVal : ConfigVal → String
  | .str s => jsonStr s
  | .int n => toString n
  | .rat q => toString q
  | .bool b => if b then "true" else "false"

/-- Comparison used by `sorted(...)` / `sort_keys=True` on mapping items:
lexicographic on the key (keys in a Python dict are distinct, so the value
component never decides the order). -/
def keyLe (a b : String × α) : Prop := a.1 ≤ b.1

instance : DecidableRel (keyLe (α := α)) :=
  fun a b => inferInstanceAs (Decidable (a.1 ≤ b.1))

instance : IsTotal (String × α) keyLe := ⟨fun a b => le_total a.1 b.1⟩

instance : IsTrans (String × α) keyLe := ⟨fun _ _ _ hab hbc => le_trans hab hbc⟩

/-- `sorted(d.items())` (and the object-key ordering of
`json.dumps(..., sort_keys=True)`). -/
def sortByKey (l : List (String × α)) : List (String × α) :=
  l.insertionSort keyLe

/-- A flat JSON object with keys sorted, as `json.dumps(d, sort_keys=True,
separators=(",", ":"))` renders a flat dict. -/
def serializeFlatObj (l : List (String × ConfigVal)) : String :=
  "\x7b" ++ String.intercalate ","
    ((sortByKey l).map (fun kv => jsonStr kv.1 ++ ":" ++ serializeConfigVal kv.2)) ++
  "\x7d"

/-- The canonical serialization of `hash_data` in `Execution.create`: the five
keys `agent`, `policy`, `task`, `tools`, `version` in the order produced by
`sort_keys=True`. -/
def serializeHashData (task : String) (policy agent : List (String × ConfigVal))
    (tools : List (List (String × ConfigVal))) (version : String) : String :=
  "\x7b\"agent\":" ++ serializeFlatObj agent ++
  ",\"policy\":" ++ serializeFlatObj policy ++
  ",\"task\":" ++ jsonStr task ++
  ",\"tools\":[" ++ String.intercalate "," (tools.map serializeFlatObj) ++
  "],\"version\":" ++ jsonStr version ++ "\x7d"

/-- `ExecutionSnapshot`: the immutable canonical configuration. -/
structure ExecutionSnapshot where
  task : String
  policy_config : List (String × ConfigVal)
  agent_config : List (String × ConfigVal)
  tool_config : List (List (String × ConfigVal))
  runtime_version : String
deriving DecidableEq, Repr

/-- The snapshot built by `Execution.create`: policy and agent mappings are
captured as `tuple(sorted(items))`; tools keep their sequence order. -/
def Execution.createSnapshot (task : String)
    (policyItems agentItems : List (String × ConfigVal))
    (tools : List (List (String × ConfigVal))) : ExecutionSnapshot :=
  { task := task
    policy_config := sortByKey policyItems
    agent_config := sortByKey agentItems
    tool_config := tools
    runtime_version := "1.1.0" }

/-- The `execution_hash` computed by `Execution.create`:
`sha256(json.dumps(hash_data, sort_keys=True, separators=(",", ":")))` where
`hash_data` is rebuilt from the snapshot.  `digest` stands for the hex SHA-256
of the UTF-8 bytes of its argument. -/
def Execution.createHash (digest : String → String) (task : String)
    (policyItems agentItems : List (String × ConfigVal))
    (tools : List (List (String × ConfigVal))) : String :=
  let snap := Execution.createSnapshot task policyItems agentItems tools
  digest (serializeHashData snap.task snap.policy_config snap.agent_config
    snap.tool_config snap.runtime_version)

/-! ## Events and the in-memory event store
(src/oao/runtime/events.py, src/oao/runtime/event_store.py) -/

/-- The event types the modelled components emit. -/
inductive EvType where
  | EXECUTION_STARTED
  | EXECUTION_COMPLETED
  | EXECUTION_FAILED
  | STATE_ENTER
  | TOOL_CALL_SUCCESS
  | IDEMPOTENT_TOOL_SKIPPED
  | POLICY_VIOLATION
  | RETRY_ATTEMPTED
deriving DecidableEq, Repr

/-- `ExecutionEvent` restricted to the fields the claims mention.  Field
defaults mirror the dataclass defaults: every cumulative counter defaults to
`0`, so a constructor call that omits a counter records `0` regardless of the
execution's actual cumulative value.  `tool_hash` stands for
`input_data["tool_hash"]` and `result` for `output_data["result"]`. -/
structure ExecutionEvent where
  execution_id : String
  step_number : Int
  event_type : EvType
  state : Option AgentState := none
  tool_hash : Option String := none
  result : Option String := none
  error : Option String := none
  cumulative_tokens : Int := 0
  cumulative_steps : Int := 0
  cumulative_tool_calls : Int := 0
deriving DecidableEq, Repr

/-- `ExecutionEvent.validate()`: non-empty execution id, non-negative step
(the event type is statically well-typed here). -/
def ExecutionEvent.validOk (e : ExecutionEvent) : Bool :=
  decide (e.execution_id ≠ "") && decide (0 ≤ e.step_number)

/-- Ordering used by `InMemoryEventStore.append_event`'s
`sort(key=lambda e: e.step_number)`. -/
def stepLe (a b : ExecutionEvent) : Prop := a.step_number ≤ b.step_number

instance : DecidableRel stepLe :=
  fun a b => inferInstanceAs (Decidable (a.step_number ≤ b.step_number))

instance : IsTotal ExecutionEvent stepLe := ⟨fun a b => le_total a.step_number b.step_number⟩

instance : IsTrans ExecutionEvent stepLe := ⟨fun _ _ _ hab hbc => le_trans hab hbc⟩

/-- `InMemoryEventStore.append_event` after the validation guard: append then
re-establish the sort by `step_number` (Python `list.sort` is stable, as is
`insertionSort`). -/
def appendEvent (log : List ExecutionEvent) (e : ExecutionEvent) : List ExecutionEvent :=
  (log ++ [e]).insertionSort stepLe

/-- `InMemoryEventStore.get_events(execution_id, from_step, to_step)`:
filter the stored (sorted) list by the inclusive step range; `to_step = none`
means no upper bound. -/
def getEvents (log : List ExecutionEvent) (from_step : Int) (to_step : Option Int) :
    List ExecutionEvent :=
  log.filter (fun e =>
    decide (from_step ≤ e.step_number) &&
      match to_step with
      | none => true
      | some t => decide (e.step_number ≤ t))

/-- `ExecutionState`, the fold target of `replay_to_state`. -/
structure ExecutionState where
  execution_id : String
  current_step : Int := 0
  cumulative_tokens : Int := 0
  cumulative_tool_calls : Int := 0
  current_state : Option AgentState := none
  last_output : Option String := none
  error : Option String := none
deriving DecidableEq, Repr

/-- One step of the `replay_to_state` fold. -/
def replayStep (s : ExecutionState) (e : ExecutionEvent) : ExecutionState :=
  let s := { s with
    cumulative_tokens := e.cumulative_tokens
    cumulative_tool_calls := e.cumulative_tool_calls
    current_step := e.step_number }
  let s := if e.event_type = .STATE_ENTER then { s with current_state := e.state } else s
  let s := match e.result with
    | some r => { s with last_output := some r }
    | none => s
  match e.error with
  | some err => { s with error := some err }
  | none => s

/-- `EventStore.replay_to_state(execution_id, target_step)`. -/
def replayToState (log : List ExecutionEvent) (execution_id : String)
    (target_step : Option Int) : ExecutionState :=
  (getEvents log 0 target_step).foldl replayStep { execution_id := execution_id }

/-! ## Orchestrator (src/oao/runtime/orchestrator.py)

`Orchestrator.run` / `run_async` is modelled as a pure function of the
behavioural parameters that the source reads from its collaborators:
* `AdapterSpec` describes the adapter: whether loading it in `_handle_init`
  raises, whether `plan` raises, the outcome of `adapter.execute` on each
  (1-based) attempt, which errors are retryable, and `get_token_usage()`.
* the policy (already a parameter of the source object) plus the wall-clock
  instants observed at `start_timer` and at each `validate` call.
* the retry budget (`getattr(policy, "retry_config", {})`; `max_retries`
  defaults to 3 for `StrictPolicy`, which has no such attribute).

The run returns the list of events it appends, in append order (`trace`),
plus report data.  The store contents after the run are obtained by folding
`appendEvent` over the trace starting from the pre-existing log of the same
execution id (`commitTrace`).

Notable source behaviour reproduced here:
* `_handle_init` replaces `self.context` with a fresh dict whose counters are
  all zero; on resume (`from_step`) this happens *after* the replayed state
  has been written into the context, so the hydrated counters are discarded —
  unless the adapter fails to load, in which case the failure event is built
  from the still-hydrated context.
* `replay_to_state` always returns an (always-truthy) `ExecutionState`
  object, so the legacy snapshot fallback branch is dead code.
* `run` (sync) maps `PolicyViolation` to a `POLICY_VIOLATION` event;
  `run_async` has a single `except Exception` handler, so the same violation
  produces `EXECUTION_FAILED` there.
* simulation hooks and the event bus perform no event-store writes and are
  omitted; tool calls made by the agent inside `execute` go through the tool
  wrapper, modelled separately below. -/

/-- The orchestrator context counters (`self.context`, keys read with
`.get(key, 0)`). -/
structure OrchContext where
  step_count : Int := 0
  token_usage : Int := 0
  tool_calls : Int := 0
deriving DecidableEq, Repr

def OrchContext.toPolicyContext (c : OrchContext) : PolicyContext :=
  { step_count := c.step_count, token_usage := c.token_usage, tool_calls := c.tool_calls }

/-- The `EXECUTION_STARTED` event (step 0, all cumulative counters passed
explicitly as 0). -/
def executionStartedEvent (eid : String) : ExecutionEvent :=
  { execution_id := eid, step_number := 0, event_type := .EXECUTION_STARTED,
    cumulative_tokens := 0, cumulative_steps := 0, cumulative_tool_calls := 0 }

/-- The per-iteration `STATE_ENTER` checkpoint: carries all cumulative
counters. -/
def stateEnterEvent (eid : String) (c : OrchContext) (st : AgentState) : ExecutionEvent :=
  { execution_id := eid, step_number := c.step_count, event_type := .STATE_ENTER,
    state := some st, cumulative_tokens := c.token_usage,
    cumulative_steps := c.step_count, cumulative_tool_calls := c.tool_calls }

/-- The `RETRY_ATTEMPTED` event emitted by the `on_retry` hook: the source
passes only `cumulative_tokens`; `cumulative_steps` and
`cumulative_tool_calls` fall back to the dataclass default 0. -/
def retryAttemptedEvent (eid : String) (c : OrchContext) (msg : String) : ExecutionEvent :=
  { execution_id := eid, step_number := c.step_count, event_type := .RETRY_ATTEMPTED,
    error := some msg, cumulative_tokens := c.token_usage }

/-- The `POLICY_VIOLATION` terminal event: the source passes only
`cumulative_tokens`; the other counters default to 0. -/
def policyViolationEvent (eid : String) (c : OrchContext) (msg : String) : ExecutionEvent :=
  { execution_id := eid, step_number := c.step_count, event_type := .POLICY_VIOLATION,
    error := some msg, cumulative_tokens := c.token_usage }

/-- The `EXECUTION_FAILED` terminal event: the source passes only
`cumulative_tokens`; the other counters default to 0. -/
def executionFailedEvent (eid : String) (c : OrchContext) (msg : String) : ExecutionEvent :=
  { execution_id := eid, step_number := c.step_count, event_type := .EXECUTION_FAILED,
    error := some msg, cumulative_tokens := c.token_usage }

/-- The `EXECUTION_COMPLETED` terminal event: carries all cumulative
counters. -/
def executionCompletedEvent (eid : String) (c : OrchContext) : ExecutionEvent :=
  { execution_id := eid, step_number := c.step_count, event_type := .EXECUTION_COMPLETED,
    cumulative_tokens := c.token_usage, cumulative_steps := c.step_count,
    cumulative_tool_calls := c.tool_calls }

/-- Behaviour of the adapter (and its agent) as observed by the orchestrator. -/
structure AdapterSpec where
  initError : Option String := none
  planError : Option String := none
  executeAttempt : Nat → Except String Unit
  retryable : String → Bool
  tokenUsage : Int

/-- Result of the lifecycle `while` loop. -/
structure LoopOut where
  trace : List ExecutionEvent
  ctx : OrchContext
  sm : StateMachine
  raised : Bool
deriving Repr

/-- One execution of the `while not self.state_machine.is_terminal()` loop.
`fuel` bounds the number of iterations (the lifecycle visits at most INIT,
PLAN, EXECUTE, REVIEW before reaching a terminal state, so the drivers pass
fuel 5); `i` is the iteration index used to time the `validate` call.
`asyncMode` selects the terminal event type for a `PolicyViolation`
(the sync driver has a dedicated handler appending `POLICY_VIOLATION`; the
async driver catches every exception as `EXECUTION_FAILED`). -/
def runLoop (asyncMode : Bool) (eid : String) (adapter : AdapterSpec)
    (policy : Option StrictPolicy) (iterTime : Nat → ℚ) (maxRetries : Nat) :
    Nat → StateMachine → OrchContext → Nat → LoopOut
  | 0, sm, ctx, _ => { trace := [], ctx := ctx, sm := sm, raised := false }
  | fuel + 1, sm, ctx, i =>
    if sm.is_terminal then { trace := [], ctx := ctx, sm := sm, raised := false }
    else
      let pv : Except String Unit := match policy with
        | some p => p.validate (iterTime i) ctx.toPolicyContext
        | none => .ok ()
      match pv with
      | .error msg =>
        if asyncMode then
          { trace := [executionFailedEvent eid ctx msg], ctx := ctx, sm := sm.fail, raised := true }
        else
          { trace := [policyViolationEvent eid ctx msg], ctx := ctx, sm := sm.fail, raised := true }
      | .ok _ =>
        let se := stateEnterEvent eid ctx sm.current_state
        match sm.current_state with
        | .INIT =>
          match adapter.initError with
          | some msg =>
            { trace := [se, executionFailedEvent eid ctx msg], ctx := ctx,
              sm := sm.fail, raised := true }
          | none =>
            let ctx1 : OrchContext := {}
            match sm.transition .PLAN with
            | (sm1, .ok _) =>
              let out := runLoop asyncMode eid adapter policy iterTime maxRetries fuel sm1 ctx1 (i + 1)
              { out with trace := se :: out.trace }
            | (_, .error msg) =>
              { trace := [se, executionFailedEvent eid ctx1 msg], ctx := ctx1,
                sm := sm.fail, raised := true }
        | .PLAN =>
          let ctx1 := { ctx with step_count := ctx.step_count + 1 }
          match adapter.planError with
          | some msg =>
            { trace := [se, executionFailedEvent eid ctx1 msg], ctx := ctx1,
              sm := sm.fail, raised := true }
          | none =>
            match sm.transition .EXECUTE with
            | (sm1, .ok _) =>
              let out := runLoop asyncMode eid adapter policy iterTime maxRetries fuel sm1 ctx1 (i + 1)
              { out with trace := se :: out.trace }
            | (_, .error msg) =>
              { trace := [se, executionFailedEvent eid ctx1 msg], ctx := ctx1,
                sm := sm.fail, raised := true }
        | .EXECUTE =>
          let ctx1 := { ctx with step_count := ctx.step_count + 1 }
          let r := execute_with_retry adapter.executeAttempt adapter.retryable maxRetries
          let retryEvs := r.2.2.map (fun p => retryAttemptedEvent eid ctx1 p.2)
          match r.1 with
          | .error msg =>
            { trace := se :: retryEvs ++ [executionFailedEvent eid ctx1 msg], ctx := ctx1,
              sm := sm.fail, raised := true }
          | .ok _ =>
            let ctx2 := { ctx1 with token_usage := ctx1.token_usage + adapter.tokenUsage }
            match sm.transition .REVIEW with
            | (sm1, .ok _) =>
              let out := runLoop asyncMode eid adapter policy iterTime maxRetries fuel sm1 ctx2 (i + 1)
              { out with trace := se :: retryEvs ++ out.trace }
            | (_, .error msg) =>
              { trace := se :: retryEvs ++ [executionFailedEvent eid ctx2 msg], ctx := ctx2,
                sm := sm.fail, raised := true }
        | .REVIEW =>
          let ctx1 := { ctx with step_count := ctx.step_count + 1 }
          match sm.transition .TERMINATE with
          | (sm1, .ok _) =>
            let out := runLoop asyncMode eid adapter policy iterTime maxRetries fuel sm1 ctx1 (i + 1)
            { out with trace := se :: out.trace }
          | (_, .error msg) =>
            { trace := [se, executionFailedEvent eid ctx1 msg], ctx := ctx1,
              sm := sm.fail, raised := true }
        | _ => { trace := [], ctx := ctx, sm := sm, raised := false }

/-- Report-level outcome of one `run` / `run_async` call. -/
structure RunResult where
  trace : List ExecutionEvent
  status : String
  ctx : OrchContext
  sm : StateMachine
deriving Repr

/-- After the loop: normal completion appends the single
`EXECUTION_COMPLETED` event; a raised-and-handled error already appended its
terminal event inside the loop. -/
def runFinish (eid : String) (out : LoopOut) (tr : List ExecutionEvent) : RunResult :=
  if out.raised then
    { trace := tr, status := "FAILED", ctx := out.ctx, sm := out.sm }
  else
    { trace := tr ++ [executionCompletedEvent eid out.ctx], status := "SUCCESS",
      ctx := out.ctx, sm := out.sm }

/-- `Orchestrator.run` (sync, `asyncMode = false`) and
`Orchestrator.run_async` (`asyncMode = true`).
`t0` is the instant `start_timer()` observes, `iterTime i` the instant the
`validate` call of iteration `i` observes, `priorLog` the events already
stored under this `execution_id` (empty for a fresh execution). -/
def orchestratorRun (asyncMode : Bool) (eid : String) (adapter : AdapterSpec)
    (policy : Option StrictPolicy) (t0 : ℚ) (iterTime : Nat → ℚ) (maxRetries : Nat)
    (priorLog : List ExecutionEvent) (fromStep : Option Int) : RunResult :=
  let p := policy.map (fun q => q.start_timer t0)
  match fromStep with
  | none =>
    let out := runLoop asyncMode eid adapter p iterTime maxRetries 5 StateMachine.init {} 0
    runFinish eid out (executionStartedEvent eid :: out.trace)
  | some k =>
    let replayed := replayToState priorLog eid (some k)
    let ctx0 : OrchContext :=
      { step_count := replayed.current_step, token_usage := replayed.cumulative_tokens,
        tool_calls := replayed.cumulative_tool_calls }
    match adapter.initError with
    | some msg =>
      { trace :=
          if asyncMode then [executionStartedEvent eid, executionFailedEvent eid ctx0 msg]
          else [executionFailedEvent eid ctx0 msg],
        status := "FAILED", ctx := ctx0, sm := StateMachine.init.fail }
    | none =>
      let sm0 := StateMachine.init.set_state .EXECUTE
      let out := runLoop asyncMode eid adapter p iterTime maxRetries 5 sm0 {} 0
      runFinish eid out (executionStartedEvent eid :: out.trace)

/-- Commit a run's appended events to a store (fold of
`InMemoryEventStore.append_event`). -/
def commitTrace (store : List ExecutionEvent) (tr : List ExecutionEvent) :
    List ExecutionEvent :=
  tr.foldl appendEvent store

/-- An event is terminating when its type is one of `EXECUTION_COMPLETED`,
`EXECUTION_FAILED`, `POLICY_VIOLATION`. -/
def isTerminalEv (e : ExecutionEvent) : Bool :=
  e.event_type = .EXECUTION_COMPLETED ∨ e.event_type = .EXECUTION_FAILED ∨
    e.event_type = .POLICY_VIOLATION

/-- The monotonicity relation of claim C2 on a pair of consecutive events. -/
def evMono (a b : ExecutionEvent) : Prop :=
  a.step_number ≤ b.step_number ∧
  a.cumulative_tokens ≤ b.cumulative_tokens ∧
  a.cumulative_tool_calls ≤ b.cumulative_tool_calls

/-! ## Idempotent tool wrapper (src/oao/runtime/tool_wrapper.py) -/

/-- `compute_tool_hash(tool_name, args, kwargs)`:
`sha256(json.dumps({"name", "args", "kwargs"}, sort_keys=True, default=str))`.
`argsJson` / `kwargsJson` are the canonical renderings of the (tuple, dict)
arguments; `sort_keys=True` orders the keys args, kwargs, name. -/
def computeToolHash (digest : String → String) (tool_name argsJson kwargsJson : String) :
    String :=
  digest ("\x7b\"args\":" ++ argsJson ++ ",\"kwargs\":" ++ kwargsJson ++
    ",\"name\":" ++ jsonStr tool_name ++ "\x7d")

/-- The context entries the wrapper reads, plus the shared counters. -/
structure WrapContext where
  execution_id : Option String
  hasEventStore : Bool
  step_count : Int
  token_usage : Int
  tool_calls : Int
deriving DecidableEq, Repr

/-- State threaded through a wrapped tool call; `invocations` is a ghost
counter of how many times the underlying callable has run. -/
structure WrapState where
  log : List ExecutionEvent
  ctx : WrapContext
  invocations : Nat
deriving Repr

/-- Python truthiness of `context.get("execution_id")`. -/
def truthyId : Option String → Bool
  | some s => s ≠ ""
  | none => false

/-- The idempotency lookup: first `TOOL_CALL_SUCCESS` event whose
`input_data["tool_hash"]` equals the key. -/
def findToolSuccess (log : List ExecutionEvent) (h : String) : Option ExecutionEvent :=
  log.find? (fun e => decide (e.event_type = .TOOL_CALL_SUCCESS) && decide (e.tool_hash = some h))

/-- The completion event the wrapper persists on success. -/
def tcsEvent (eid : String) (step : Int) (h : String) (res : String) : ExecutionEvent :=
  { execution_id := eid, step_number := step, event_type := .TOOL_CALL_SUCCESS,
    tool_hash := some h, result := some res }

/-- The invocation path of `wrapped` (after the idempotency check found no
stored result, or when no lookup happened): increment `tool_calls`, validate
the policy, invoke the callable, and — when both context entries and the hash
are present — persist the `TOOL_CALL_SUCCESS` event (whose append re-raises on
a validation failure of the event itself). -/
def wrappedInvoke (th : Option String) (f : Nat → Except String String)
    (policy : Option StrictPolicy) (now : ℚ) (s : WrapState) :
    WrapState × Except String (Option String) :=
  let ctx1 := { s.ctx with tool_calls := s.ctx.tool_calls + 1 }
  let s1 := { s with ctx := ctx1 }
  let pv : Except String Unit := match policy with
    | some p => p.validate now
        { step_count := ctx1.step_count, token_usage := ctx1.token_usage,
          tool_calls := ctx1.tool_calls }
    | none => .ok ()
  match pv with
  | .error m => (s1, .error m)
  | .ok _ =>
    let s2 := { s1 with invocations := s1.invocations + 1 }
    match f s1.invocations with
    | .error m => (s2, .error m)
    | .ok res =>
      match th, s.ctx.execution_id with
      | some h, some eid =>
        let ev := tcsEvent eid ctx1.step_count h res
        if ev.validOk then
          ({ s2 with log := appendEvent s2.log ev }, .ok (some res))
        else (s2, .error "Invalid event")
      | _, _ => (s2, .ok (some res))

/-- One call of the function returned by
`wrap_tool(tool_name, tool_func, context, policy)`.  When both
`context["execution_id"]` and `context["event_store"]` are present (truthy),
the event log is consulted for a prior `TOOL_CALL_SUCCESS` with the same key:
on a hit the stored result is returned with no further effect (the source
only prints a skip message and sets a span attribute — it appends no event).
Otherwise the callable is invoked through `wrappedInvoke`. -/
def wrappedCall (digest : String → String) (tool_name argsJson kwargsJson : String)
    (f : Nat → Except String String) (policy : Option StrictPolicy) (now : ℚ)
    (s : WrapState) : WrapState × Except String (Option String) :=
  if truthyId s.ctx.execution_id && s.ctx.hasEventStore then
    let h := computeToolHash digest tool_name argsJson kwargsJson
    match findToolSuccess s.log h with
    | some e => (s, .ok e.result)
    | none => wrappedInvoke (some h) f policy now s
  else
    wrappedInvoke none f policy now s

/-! ## DAG scheduler (src/oao/runtime/dag.py) -/

/-- A task node: unique name plus dependency names (the agent payload is
irrelevant to `get_execution_order`). -/
structure TaskNode where
  name : String
  dependencies : List String
deriving DecidableEq, Repr

/-- The adjacency list `adj_list[d]` built by `get_execution_order`:
dependents of `d` in node-insertion order, with one entry per occurrence of
`d` in a node's dependency list. -/
def adjList (nodes : List TaskNode) (d : String) : List String :=
  nodes.flatMap (fun n => List.replicate (n.dependencies.count d) n.name)

/-- The initial in-degree map: `in_degree[name] = len(node.dependencies)`
(one increment per dependency occurrence, whether or not the dependency
exists). -/
def initIndeg (nodes : List TaskNode) : String → Int :=
  fun nm =>
    match nodes.find? (fun n => n.name = nm) with
    | some n => (n.dependencies.length : Int)
    | none => 0

/-- Processing one drained node `nm`: decrement each dependent (in adjacency
order) and append those that reach exactly zero to the next queue. -/
def processNeighbors (adj : String → List String) (nm : String)
    (st : (String → Int) × List String) : (String → Int) × List String :=
  (adj nm).foldl
    (fun acc nb =>
      let d := acc.1 nb - 1
      let ind := Function.update acc.1 nb d
      if d = 0 then (ind, acc.2 ++ [nb]) else (ind, acc.2))
    st

/-- Draining one level: process every queued node, collecting the next
queue. -/
def drainLevel (adj : String → List String) (queue : List String)
    (indeg : String → Int) : (String → Int) × List String :=
  queue.foldl (fun acc nm => processNeighbors adj nm acc) (indeg, [])

/-- The `while queue:` loop of Kahn's algorithm, with fuel (the drivers pass
`nodes.length + 1`, which the proofs show is never exhausted). -/
def kahnLoop (adj : String → List String) :
    Nat → (String → Int) → List String → List (List String) → Nat →
    List (List String) × Nat
  | 0, _, _, acc, processed => (acc, processed)
  | fuel + 1, indeg, queue, acc, processed =>
    if queue.isEmpty then (acc, processed)
    else
      let st := drainLevel adj queue indeg
      kahnLoop adj fuel st.1 st.2 (acc ++ [queue]) (processed + queue.length)

/-- `TaskGraph.get_execution_order()`. -/
def getExecutionOrder (nodes : List TaskNode) : Except String (List (List String)) :=
  let indeg0 := initIndeg nodes
  let queue0 := (nodes.map TaskNode.name).filter (fun nm => indeg0 nm = 0)
  let r := kahnLoop (adjList nodes) (nodes.length + 1) indeg0 queue0 [] 0
  if r.2 ≠ nodes.length then .error "Graph contains a cycle" else .ok r.1

/-- The dependency list of the node named `nm` (first match, as Python's
dict lookup after unique insertion; `[]` when no such node exists). -/
def depsOf (nodes : List TaskNode) (nm : String) : List String :=
  match nodes.find? (fun n => n.name = nm) with
  | some n => n.dependencies
  | none => []

/-- The number of dependency occurrences of the node named `nm` whose target
has not yet been drained into `P` (the value Kahn's in-degree map holds). -/
def remaining (nodes : List TaskNode) (P : List String) (nm : String) : Int :=
  (((depsOf nodes nm).filter (fun d => decide (d ∉ P))).length : Int)

/-- The inner fold of `processNeighbors`, abstracted over the list of
dependent-name occurrences. -/
def decList (L : List String) (st : (String → Int) × List String) :
    (String → Int) × List String :=
  L.foldl
    (fun acc nb =>
      let d := acc.1 nb - 1
      let ind := Function.update acc.1 nb d
      if d = 0 then (ind, acc.2 ++ [nb]) else (ind, acc.2))
    st

/-- The well-formedness Kahn's loop guarantees of its result. -/
def KahnOut (nodes : List TaskNode) (r : List (List String) × Nat) : Prop :=
  r.2 = r.1.flatten.length
  ∧ r.1.flatten.Nodup
  ∧ (∀ x ∈ r.1.flatten, x ∈ nodes.map TaskNode.name)
  ∧ (∀ nm ∈ nodes.map TaskNode.name, remaining nodes r.1.flatten nm = 0 →
      nm ∈ r.1.flatten)
  ∧ (∀ k x, x ∈ r.1.getD k [] → ∀ d, d ∈ depsOf nodes x → d ∈ (r.1.take k).flatten)

/-- `b` is listed among the dependencies of the graph node named `a`. -/
def depOf (nodes : List TaskNode) (a b : String) : Prop :=
  ∃ n ∈ nodes, n.name = a ∧ b ∈ n.dependencies

/-- A directed dependency cycle: a non-empty list of names, each node's
successor in the list (cyclically) being one of its dependencies. -/
def isCycle (nodes : List TaskNode) (c : List String) : Prop :=
  c ≠ [] ∧ c.Chain' (depOf nodes) ∧
    ∀ h : c ≠ [], depOf nodes (c.getLast h) (c.head h)

/-- The graph contains a dependency cycle. -/
def HasCycle (nodes : List TaskNode) : Prop := ∃ c, isCycle nodes c

/-- The terminal event appended when `validate` raises inside the loop:
`POLICY_VIOLATION` in `run`, `EXECUTION_FAILED` in `run_async` (whose single
`except Exception` handler catches the violation).  Both carry the same
numeric fields. -/
def terminalPolicyEvent (asyncMode : Bool) (eid : String) (c : OrchContext)
    (msg : String) : ExecutionEvent :=
  if asyncMode then executionFailedEvent eid c msg else policyViolationEvent eid c msg

/-! ## Concrete scenarios and trace predicates used by the claims -/

instance : DecidableRel evMono :=
  fun _a _b => inferInstanceAs (Decidable (_ ∧ _ ∧ _))

/-- Well-formedness of the events a single run appends, in append order:
consecutive events are monotone in step number and cumulative counters,
exactly one appended event is terminating, the terminating event is appended
last, and every step number is non-negative. -/
def GoodTrace (tr : List ExecutionEvent) : Prop :=
  tr.Chain' evMono ∧ tr.countP isTerminalEv = 1 ∧ tr ≠ [] ∧
  (∀ e, tr.getLast? = some e → isTerminalEv e = true) ∧
  (∀ e ∈ tr, 0 ≤ e.step_number)

/-- Scenario: an adapter whose `execute` always raises a retryable error. -/
def failingAdapter : AdapterSpec :=
  { executeAttempt := fun _ => .error "boom", retryable := fun _ => true, tokenUsage := 0 }

/-- Scenario: an adapter whose `execute` succeeds at once, using no tokens. -/
def succeedingAdapter : AdapterSpec :=
  { executeAttempt := fun _ => .ok (), retryable := fun _ => true, tokenUsage := 0 }

/-- The store of execution "e1" after a fresh sync run with the failing
adapter, no policy, `max_retries = 0`: the run fails in EXECUTE, appending
`EXECUTION_FAILED` at step 2. -/
def crashedStore : List ExecutionEvent :=
  commitTrace [] (orchestratorRun false "e1" failingAdapter none 0 (fun _ => 0) 0 [] none).trace

/-- The run that resumes execution "e1" with `from_step = 2` after the
failure, now with a succeeding adapter. -/
def resumedRun : RunResult :=
  orchestratorRun false "e1" succeedingAdapter none 0 (fun _ => 0) 0 crashedStore (some 2)

/-- The store of a fresh, successful sync run of execution "e2". -/
def happyStore : List ExecutionEvent :=
  commitTrace [] (orchestratorRun false "e2" succeedingAdapter none 0 (fun _ => 0) 0 [] none).trace

/-! ## Theorems -/

/-- C4: `StateMachine.transition(next_state)` succeeds exactly on the eight
legal pairs INIT→{PLAN, FAILED}, PLAN→{EXECUTE, FAILED}, EXECUTE→{REVIEW,
FAILED}, REVIEW→{TERMINATE, FAILED}; in every other case (including any
transition out of TERMINATE or FAILED) it raises `InvalidStateTransition` and
leaves `current_state` and the recorded history unchanged; on success it sets
`current_state` to `next_state` and appends it to the history.  (The model
returns the machine unchanged in the error case because the Python method
raises before mutating; "returns normally and mutates" vs "raises and leaves
unchanged" is exactly the pair returned by `transition`.) -/
theorem C4_stateMachine_transition (m : StateMachine) (next : AgentState) :
    ((m.transition next).2 = Except.ok () ↔ (m.current_state, next) ∈ legalPairs)
    ∧ ((m.transition next).2 = Except.ok () →
        (m.transition next).1 =
          { current_state := next, history := m.history ++ [next] })
    ∧ ((m.transition next).2 ≠ Except.ok () →
        (m.transition next).1 = m ∧
        (m.transition next).2 =
          Except.error ("Invalid transition from " ++ m.current_state.label ++
            " to " ++ next.label)) := by
  obtain ⟨cs, h⟩ := m
  cases cs <;> cases next <;>
    simp [StateMachine.transition, transitionsTable, legalPairs, AgentState.label]

/-- Witness for C4 at a concrete machine: from INIT, a transition to PLAN
succeeds and both updates occur. -/
theorem C4_stateMachine_transition_witness :
    (StateMachine.init.transition .PLAN).1 =
      { current_state := .PLAN, history := [.INIT, .PLAN] } :=
  (C4_stateMachine_transition StateMachine.init .PLAN).2.1 rfl

/-- C5: after `start_timer()` (so `start_time = some t` with `t = time.time()
> 0`), `validate(context)` raises `PolicyViolation` iff elapsed time exceeds
`timeout_seconds` or a counter strictly exceeds its budget, the checks being
made in the order timeout → steps → tokens → tool-calls, each naming its own
budget; with no breach it returns normally (and the source method mutates no
state: the model is a pure function of the policy and context). -/
theorem C5_strictPolicy_validate (p : StrictPolicy) (t now : ℚ) (c : PolicyContext)
    (hst : p.start_time = some t) (ht : 0 < t) :
    (p.validate now c = .ok () ↔
      ¬(now - t > (p.timeout_seconds : ℚ)) ∧ ¬(c.step_count > p.max_steps) ∧
      ¬(c.token_usage > p.max_tokens) ∧ ¬(c.tool_calls > p.max_tool_calls))
    ∧ (now - t > (p.timeout_seconds : ℚ) →
        p.validate now c = .error "Execution timeout exceeded")
    ∧ (¬(now - t > (p.timeout_seconds : ℚ)) → c.step_count > p.max_steps →
        p.validate now c = .error "Maximum execution steps exceeded")
    ∧ (¬(now - t > (p.timeout_seconds : ℚ)) → ¬(c.step_count > p.max_steps) →
        c.token_usage > p.max_tokens →
        p.validate now c = .error "Maximum token limit exceeded")
    ∧ (¬(now - t > (p.timeout_seconds : ℚ)) → ¬(c.step_count > p.max_steps) →
        ¬(c.token_usage > p.max_tokens) → c.tool_calls > p.max_tool_calls →
        p.validate now c = .error "Maximum tool calls exceeded") := by
  have hb : p.timeoutBreached now = decide (now - t > (p.timeout_seconds : ℚ)) := by
    simp [StrictPolicy.timeoutBreached, hst, ne_of_gt ht]
  unfold StrictPolicy.validate
  rw [hb]
  by_cases h1 : now - t > (p.timeout_seconds : ℚ) <;>
    by_cases h2 : c.step_count > p.max_steps <;>
    by_cases h3 : c.token_usage > p.max_tokens <;>
    by_cases h4 : c.tool_calls > p.max_tool_calls <;>
    simp [h1, h2, h3, h4]

/-- Witness for C5 at concrete values: policy `(max_steps = 2, ...)`, timer
anchored at `t = 1`, elapsed `4 > 3 = timeout` ⇒ the timeout message wins
even though the step budget is also breached. -/
theorem C5_strictPolicy_validate_witness :
    StrictPolicy.validate
      { max_tokens := 10, max_steps := 2, max_tool_calls := 1, timeout_seconds := 3,
        start_time := some 1 } 5
      { step_count := 5, token_usage := 0, tool_calls := 0 } =
      .error "Execution timeout exceeded" :=
  (C5_strictPolicy_validate
      { max_tokens := 10, max_steps := 2, max_tool_calls := 1, timeout_seconds := 3,
        start_time := some 1 } 1 5
      { step_count := 5, token_usage := 0, tool_calls := 0 }
      rfl (by norm_num)).2.1 (by norm_num)

/-- The retry loop makes at most `attemptsLeft + 1` invocations. -/
theorem retryLoop_invocations_le (f : Nat → Except String α) (r : String → Bool) :
    ∀ (n attempt : Nat), (retryLoop f r attempt n).2.1 ≤ n + 1 := by
  intro n
  induction n with
  | zero =>
    intro attempt
    unfold retryLoop
    cases f attempt with
    | ok a => simp
    | error e => by_cases hr : r e = true <;> simp [hr]
  | succ k ih =>
    intro attempt
    unfold retryLoop
    cases f attempt with
    | ok a => simp
    | error e =>
      by_cases hr : r e = true
      · simp only [hr, if_true]
        simpa using Nat.succ_le_succ (ih (attempt + 1))
      · simp [hr]

/-- If every attempt in the window raises a retryable error, the loop makes
exactly `attemptsLeft + 1` invocations and returns the outcome of the final
attempt. -/
theorem retryLoop_all_fail (f : Nat → Except String α) (r : String → Bool) :
    ∀ (n attempt : Nat),
      (∀ k, attempt ≤ k → k ≤ attempt + n → ∃ e, f k = .error e ∧ r e = true) →
      (retryLoop f r attempt n).1 = f (attempt + n) ∧
      (retryLoop f r attempt n).2.1 = n + 1 := by
  intro n
  induction n with
  | zero =>
    intro attempt h
    obtain ⟨e, he, hre⟩ := h attempt le_rfl (by omega)
    unfold retryLoop
    rw [he]
    simp [hre, he]
  | succ k ih =>
    intro attempt h
    obtain ⟨e, he, hre⟩ := h attempt le_rfl (by omega)
    have ihh := ih (attempt + 1) (fun j hj1 hj2 => h j (by omega) (by omega))
    unfold retryLoop
    rw [he]
    simp only [hre, if_true]
    refine ⟨?_, ?_⟩
    · show (retryLoop f r (attempt + 1) k).1 = f (attempt + (k + 1))
      rw [ihh.1]
      congr 1
      omega
    · show (retryLoop f r (attempt + 1) k).2.1 + 1 = k + 1 + 1
      rw [ihh.2]

/-- C7: for every `max_retries ≥ 0`, `execute_with_retry` invokes the
callable at most `max_retries + 1` times; if every invocation raises a
retryable error, the loop makes exactly `max_retries + 1` invocations and
re-raises the error of the final attempt; with `max_retries = 0` the callable
is invoked exactly once (whatever its outcomes). -/
theorem C7_execute_with_retry (maxRetries : Nat) (f : Nat → Except String α)
    (r : String → Bool) :
    ((execute_with_retry f r maxRetries).2.1 ≤ maxRetries + 1)
    ∧ ((∀ k, 1 ≤ k → k ≤ maxRetries + 1 → ∃ e, f k = Except.error e ∧ r e = true) →
        (execute_with_retry f r maxRetries).1 = f (maxRetries + 1) ∧
        (execute_with_retry f r maxRetries).2.1 = maxRetries + 1)
    ∧ ((execute_with_retry f r 0).2.1 = 1) := by
  refine ⟨retryLoop_invocations_le f r maxRetries 1, fun h => ?_, ?_⟩
  · have := retryLoop_all_fail f r maxRetries 1 (fun k hk1 hk2 => h k hk1 (by omega))
    rw [Nat.add_comm 1 maxRetries] at this
    exact this
  · have := retryLoop_invocations_le f r 0 1
    have h1 : 1 ≤ (retryLoop f r 1 0).2.1 := by
      unfold retryLoop
      cases f 1 with
      | ok a => simp
      | error e => by_cases hr : r e = true <;> simp [hr]
    unfold execute_with_retry
    omega

/-- Witness for C7: a callable that always raises a retryable error, with
`max_retries = 2`, is invoked exactly 3 times and the final error surfaces. -/
theorem C7_execute_with_retry_witness :
    (execute_with_retry (fun _ => (Except.error "boom" : Except String Unit))
        (fun _ => true) 2).1 = Except.error "boom" ∧
    (execute_with_retry (fun _ => (Except.error "boom" : Except String Unit))
        (fun _ => true) 2).2.1 = 3 :=
  (C7_execute_with_retry 2 (fun _ => (Except.error "boom" : Except String Unit))
      (fun _ => true)).2.1
    (fun _k _ _ => ⟨"boom", rfl, rfl⟩)

/-- Two lists of key-value pairs that are permutations of each other, both
sorted by key, with duplicate-free keys, are equal.  (This is why canonical
serialization is insensitive to mapping insertion order.) -/
theorem eq_of_perm_of_sorted_keys {β : Type} :
    ∀ (l₁ l₂ : List (String × β)), l₁.Perm l₂ → l₁.Sorted keyLe → l₂.Sorted keyLe →
      (l₁.map Prod.fst).Nodup → l₁ = l₂ := by
  intro l₁
  induction l₁ with
  | nil =>
    intro l₂ hp _ _ _
    exact (hp.nil_eq).symm ▸ rfl
  | cons a t₁ ih =>
    intro l₂ hp hs₁ hs₂ hnd
    cases l₂ with
    | nil => exact absurd hp.symm.nil_eq (by simp)
    | cons b t₂ =>
      have hab : a = b := by
        have haIn : a ∈ b :: t₂ := hp.mem_iff.mp (List.mem_cons_self a t₁)
        have hbIn : b ∈ a :: t₁ := hp.symm.mem_iff.mp (List.mem_cons_self b t₂)
        rcases List.mem_cons.mp haIn with hab | haT₂
        · exact hab
        rcases List.mem_cons.mp hbIn with hba | hbT₁
        · exact hba.symm
        have h₁ : keyLe a b := (List.sorted_cons.mp hs₁).1 b hbT₁
        have h₂ : keyLe b a := (List.sorted_cons.mp hs₂).1 a haT₂
        have hkey : a.1 = b.1 := le_antisymm h₁ h₂
        have : a.1 ∈ t₁.map Prod.fst := by
          rw [hkey]
          exact List.mem_map_of_mem Prod.fst hbT₁
        exact absurd this ((List.nodup_cons.mp hnd).1)
      subst hab
      have htp : t₁.Perm t₂ := hp.cons_inv
      have := ih t₂ htp (List.sorted_cons.mp hs₁).2 (List.sorted_cons.mp hs₂).2
        (List.nodup_cons.mp hnd).2
      rw [this]

/-- Sorting by key is a canonical form: permuting a mapping with
duplicate-free keys does not change `sorted(d.items())`. -/
theorem sortByKey_perm_eq {β : Type} (l₁ l₂ : List (String × β))
    (hp : l₁.Perm l₂) (hnd : (l₁.map Prod.fst).Nodup) :
    sortByKey l₁ = sortByKey l₂ := by
  have p₁ : (sortByKey l₁).Perm l₁ := List.perm_insertionSort keyLe l₁
  have p₂ : (sortByKey l₂).Perm l₂ := List.perm_insertionSort keyLe l₂
  refine eq_of_perm_of_sorted_keys _ _ (p₁.trans (hp.trans p₂.symm))
    (List.sorted_insertionSort keyLe l₁) (List.sorted_insertionSort keyLe l₂) ?_
  have : ((sortByKey l₁).map Prod.fst).Perm (l₁.map Prod.fst) := p₁.map Prod.fst
  exact this.nodup_iff.mpr hnd

/-- `serializeFlatObj` is insensitive to insertion order of a mapping with
duplicate-free keys. -/
theorem serializeFlatObj_perm_eq (l₁ l₂ : List (String × ConfigVal))
    (hp : l₁.Perm l₂) (hnd : (l₁.map Prod.fst).Nodup) :
    serializeFlatObj l₁ = serializeFlatObj l₂ := by
  unfold serializeFlatObj
  rw [sortByKey_perm_eq l₁ l₂ hp hnd]

/-- C9: the execution content hash is a pure function of the canonicalized
snapshot fields: two executions created from configurations whose canonical
fields are equal — in particular under any permutation of the insertion order
of the policy mapping, the agent mapping, or of each tool descriptor mapping —
receive identical `execution_hash` values, for every digest function (hence
for SHA-256).  Keys of a Python dict are necessarily distinct, whence the
`Nodup` hypotheses. -/
theorem C9_executionHash_canonical (digest : String → String) (task : String)
    (p₁ p₂ a₁ a₂ : List (String × ConfigVal))
    (t₁ t₂ : List (List (String × ConfigVal)))
    (hpp : p₁.Perm p₂) (hpk : (p₁.map Prod.fst).Nodup)
    (hap : a₁.Perm a₂) (hak : (a₁.map Prod.fst).Nodup)
    (htp : List.Forall₂ (fun x y => x.Perm y ∧ (x.map Prod.fst).Nodup) t₁ t₂) :
    Execution.createHash digest task p₁ a₁ t₁ =
      Execution.createHash digest task p₂ a₂ t₂ := by
  unfold Execution.createHash Execution.createSnapshot
  simp only
  congr 1
  unfold serializeHashData
  have hpol : sortByKey p₁ = sortByKey p₂ := sortByKey_perm_eq p₁ p₂ hpp hpk
  have hag : sortByKey a₁ = sortByKey a₂ := sortByKey_perm_eq a₁ a₂ hap hak
  have htools : t₁.map serializeFlatObj = t₂.map serializeFlatObj := by
    induction htp with
    | nil => rfl
    | cons hxy _ ihl =>
      simp only [List.map_cons, ihl]
      rw [serializeFlatObj_perm_eq _ _ hxy.1 hxy.2]
  rw [hpol, hag, htools]

/-- Witness for C9: permuting the insertion order of a two-key policy
mapping and of a tool descriptor leaves the hash unchanged (digest
instantiated with the identity function; the serialized payloads coincide). -/
theorem C9_executionHash_canonical_witness :
    Execution.createHash id "t"
      [("max_steps", ConfigVal.int 5), ("max_tokens", ConfigVal.int 100)]
      [("class", ConfigVal.str "A"), ("name", ConfigVal.str "a")]
      [[("description", ConfigVal.str "d"), ("name", ConfigVal.str "tool1")]] =
    Execution.createHash id "t"
      [("max_tokens", ConfigVal.int 100), ("max_steps", ConfigVal.int 5)]
      [("name", ConfigVal.str "a"), ("class", ConfigVal.str "A")]
      [[("name", ConfigVal.str "tool1"), ("description", ConfigVal.str "d")]] :=
  C9_executionHash_canonical id "t" _ _ _ _ _ _
    (List.Perm.swap _ _ _) (by decide)
    (List.Perm.swap _ _ _) (by decide)
    (List.Forall₂.cons ⟨List.Perm.swap _ _ _, by decide⟩ List.Forall₂.nil)

/-- C10: when the context given to `wrap_tool` lacks a truthy
`execution_id` or an `event_store`, the wrapped function performs no
idempotency lookup (its outcome is independent of the stored log) and records
no `TOOL_CALL_SUCCESS` event (the log is returned unchanged), so the
underlying callable is invoked on every call — in particular on repeated
calls with identical `(name, args, kwargs)` — whenever the policy check
inside the wrapper passes (a raising policy propagates out before the
callable runs, which is the only way a call can avoid the invocation). -/
theorem C10_wrapper_inactive_dedup (digest : String → String)
    (tool_name argsJson kwargsJson : String) (f : Nat → Except String String)
    (policy : Option StrictPolicy) (now : ℚ) (s : WrapState)
    (hmiss : (truthyId s.ctx.execution_id && s.ctx.hasEventStore) = false) :
    ((wrappedCall digest tool_name argsJson kwargsJson f policy now s).1.log = s.log)
    ∧ ((∀ p, policy = some p →
          p.validate now
            { step_count := s.ctx.step_count, token_usage := s.ctx.token_usage,
              tool_calls := s.ctx.tool_calls + 1 } = .ok ()) →
        (wrappedCall digest tool_name argsJson kwargsJson f policy now s).1.invocations =
          s.invocations + 1)
    ∧ (∀ l' : List ExecutionEvent,
        (wrappedCall digest tool_name argsJson kwargsJson f policy now
            { s with log := l' }).2 =
          (wrappedCall digest tool_name argsJson kwargsJson f policy now s).2) := by
  have hcall : ∀ (s' : WrapState),
      (truthyId s'.ctx.execution_id && s'.ctx.hasEventStore) = false →
      wrappedCall digest tool_name argsJson kwargsJson f policy now s' =
        wrappedInvoke none f policy now s' := by
    intro s' hm
    unfold wrappedCall
    rw [hm]
    simp only [Bool.false_eq_true, if_false]
  refine ⟨?_, ?_, ?_⟩
  · rw [hcall s hmiss]
    unfold wrappedInvoke
    simp only
    cases policy with
    | none => cases hf : f s.invocations <;> simp [hf]
    | some p =>
      cases hv : p.validate now
          { step_count := s.ctx.step_count, token_usage := s.ctx.token_usage,
            tool_calls := s.ctx.tool_calls + 1 } with
      | error m => simp [hv]
      | ok u => cases hf : f s.invocations <;> simp [hv, hf]
  · intro hpass
    rw [hcall s hmiss]
    unfold wrappedInvoke
    simp only
    cases policy with
    | none => cases hf : f s.invocations <;> simp [hf]
    | some p =>
      cases hv : p.validate now
          { step_count := s.ctx.step_count, token_usage := s.ctx.token_usage,
            tool_calls := s.ctx.tool_calls + 1 } with
      | error m =>
        have := hpass p rfl
        rw [hv] at this
        exact absurd this (by simp)
      | ok u => cases hf : f s.invocations <;> simp [hv, hf]
  · intro l'
    rw [hcall s hmiss, hcall { s with log := l' } hmiss]
    unfold wrappedInvoke
    simp only
    cases policy with
    | none => cases hf : f s.invocations <;> simp [hf]
    | some p =>
      cases hv : p.validate now
          { step_count := s.ctx.step_count, token_usage := s.ctx.token_usage,
            tool_calls := s.ctx.tool_calls + 1 } with
      | error m => simp [hv]
      | ok u => cases hf : f s.invocations <;> simp [hv, hf]

/-- Witness for C10: with no `execution_id` in the context and no policy, a
call on a log that even contains a matching `TOOL_CALL_SUCCESS` still invokes
the callable and leaves the log unchanged. -/
theorem C10_wrapper_inactive_dedup_witness :
    ((wrappedCall id "double" "[5]" "\x7b\x7d" (fun _ => .ok "10") none 0
        { log := [tcsEvent "e1" 0 (computeToolHash id "double" "[5]" "\x7b\x7d") "10"],
          ctx := { execution_id := none, hasEventStore := true, step_count := 0,
                   token_usage := 0, tool_calls := 0 },
          invocations := 0 }).1.log =
      [tcsEvent "e1" 0 (computeToolHash id "double" "[5]" "\x7b\x7d") "10"])
    ∧ ((wrappedCall id "double" "[5]" "\x7b\x7d" (fun _ => .ok "10") none 0
        { log := [tcsEvent "e1" 0 (computeToolHash id "double" "[5]" "\x7b\x7d") "10"],
          ctx := { execution_id := none, hasEventStore := true, step_count := 0,
                   token_usage := 0, tool_calls := 0 },
          invocations := 0 }).1.invocations = 0 + 1) :=
  ⟨(C10_wrapper_inactive_dedup id "double" "[5]" "\x7b\x7d" (fun _ => .ok "10") none 0
      { log := [tcsEvent "e1" 0 (computeToolHash id "double" "[5]" "\x7b\x7d") "10"],
        ctx := { execution_id := none, hasEventStore := true, step_count := 0,
                 token_usage := 0, tool_calls := 0 },
        invocations := 0 } rfl).1,
   (C10_wrapper_inactive_dedup id "double" "[5]" "\x7b\x7d" (fun _ => .ok "10") none 0
      { log := [tcsEvent "e1" 0 (computeToolHash id "double" "[5]" "\x7b\x7d") "10"],
        ctx := { execution_id := none, hasEventStore := true, step_count := 0,
                 token_usage := 0, tool_calls := 0 },
        invocations := 0 } rfl).2.1 (fun _p h => nomatch h)⟩

/-- C3 counterexample: the claim asserts that on an idempotency hit the
wrapper "emits an IDEMPOTENT_TOOL_SKIPPED event".  At this concrete input the
hit path is taken (the stored result `"10"` is returned without invoking the
callable), yet the resulting log — unchanged — contains no
`IDEMPOTENT_TOOL_SKIPPED` event: the source only prints a message and sets a
tracing-span attribute. -/
theorem C3_no_skip_event_counterexample :
    ((wrappedCall id "double" "[5]" "\x7b\x7d" (fun _ => .ok "99") none 0
        { log := [tcsEvent "e1" 0 (computeToolHash id "double" "[5]" "\x7b\x7d") "10"],
          ctx := { execution_id := some "e1", hasEventStore := true, step_count := 0,
                   token_usage := 0, tool_calls := 0 },
          invocations := 0 }).2 = .ok (some "10"))
    ∧ ((wrappedCall id "double" "[5]" "\x7b\x7d" (fun _ => .ok "99") none 0
        { log := [tcsEvent "e1" 0 (computeToolHash id "double" "[5]" "\x7b\x7d") "10"],
          ctx := { execution_id := some "e1", hasEventStore := true, step_count := 0,
                   token_usage := 0, tool_calls := 0 },
          invocations := 0 }).1.invocations = 0)
    ∧ ((wrappedCall id "double" "[5]" "\x7b\x7d" (fun _ => .ok "99") none 0
        { log := [tcsEvent "e1" 0 (computeToolHash id "double" "[5]" "\x7b\x7d") "10"],
          ctx := { execution_id := some "e1", hasEventStore := true, step_count := 0,
                   token_usage := 0, tool_calls := 0 },
          invocations := 0 }).1.log.countP
        (fun e => e.event_type = .IDEMPOTENT_TOOL_SKIPPED) = 0) := by
  refine ⟨?_, ?_, ?_⟩ <;> rfl

/-- If the invocation path of the wrapper returns successfully with a key in
hand, the callable ran exactly once, the context flags are untouched, and the
persisted `TOOL_CALL_SUCCESS` is findable in the new log under that key. -/
theorem wrappedInvoke_ok (h : String) (f : Nat → Except String String)
    (policy : Option StrictPolicy) (now : ℚ) (s : WrapState)
    (htruthy : truthyId s.ctx.execution_id = true)
    (hok : ((wrappedInvoke (some h) f policy now s).2).isOk = true) :
    (wrappedInvoke (some h) f policy now s).1.invocations = s.invocations + 1
    ∧ (wrappedInvoke (some h) f policy now s).1.ctx.execution_id = s.ctx.execution_id
    ∧ (wrappedInvoke (some h) f policy now s).1.ctx.hasEventStore = s.ctx.hasEventStore
    ∧ (findToolSuccess (wrappedInvoke (some h) f policy now s).1.log h).isSome = true := by
  unfold wrappedInvoke at hok ⊢
  simp only at hok ⊢
  rcases hpvc : (match policy with
    | some p => p.validate now
        { step_count := s.ctx.step_count, token_usage := s.ctx.token_usage,
          tool_calls := s.ctx.tool_calls + 1 }
    | none => (.ok () : Except String Unit)) with m | u
  case error =>
    rw [hpvc] at hok
    simp [Except.isOk, Except.toBool] at hok
  case ok =>
    rw [hpvc] at hok ⊢
    simp only at hok ⊢
    cases hf : f s.invocations with
    | error m =>
      rw [hf] at hok
      simp [Except.isOk, Except.toBool] at hok
    | ok res =>
      rw [hf] at hok
      simp only at hok ⊢
      cases hid : s.ctx.execution_id with
      | none =>
        rw [hid] at htruthy
        simp [truthyId] at htruthy
      | some eid =>
        rw [hid] at hok
        simp only at hok ⊢
        by_cases hval : (tcsEvent eid s.ctx.step_count h res).validOk = true
        · rw [if_pos hval] at hok ⊢
          refine ⟨rfl, rfl, rfl, ?_⟩
          simp only [findToolSuccess]
          rw [List.find?_isSome]
          refine ⟨tcsEvent eid s.ctx.step_count h res, ?_, ?_⟩
          · have hperm : (appendEvent s.log (tcsEvent eid s.ctx.step_count h res)).Perm
                (s.log ++ [tcsEvent eid s.ctx.step_count h res]) :=
              List.perm_insertionSort stepLe _
            exact hperm.mem_iff.mpr (by simp)
          · simp [tcsEvent]
        · rw [if_neg hval] at hok
          simp [Except.isOk, Except.toBool] at hok

/-- C3 (amended): when the execution's event log already contains a
`TOOL_CALL_SUCCESS` whose key equals the key of the current call, the wrapper
returns the stored result without invoking the underlying callable and
without appending any event (in particular no `IDEMPOTENT_TOOL_SKIPPED`
event is emitted to the log — the source only logs a message and marks the
tracing span); consequently, for two invocations with equal
`(name, args, kwargs)` within one execution whose first invocation returned
successfully, the underlying callable runs at most once across both calls. -/
theorem C3_wrapper_idempotent (digest : String → String)
    (tool_name argsJson kwargsJson : String) (f : Nat → Except String String)
    (policy : Option StrictPolicy) (now : ℚ) (s : WrapState)
    (hpresent : (truthyId s.ctx.execution_id && s.ctx.hasEventStore) = true) :
    (∀ e, findToolSuccess s.log (computeToolHash digest tool_name argsJson kwargsJson) =
        some e →
      wrappedCall digest tool_name argsJson kwargsJson f policy now s = (s, .ok e.result))
    ∧ (((wrappedCall digest tool_name argsJson kwargsJson f policy now s).2).isOk = true →
        ((wrappedCall digest tool_name argsJson kwargsJson f policy now
            (wrappedCall digest tool_name argsJson kwargsJson f policy now s).1).1).invocations ≤
          s.invocations + 1) := by
  have hcall : ∀ (s' : WrapState),
      (truthyId s'.ctx.execution_id && s'.ctx.hasEventStore) = true →
      wrappedCall digest tool_name argsJson kwargsJson f policy now s' =
        (match findToolSuccess s'.log (computeToolHash digest tool_name argsJson kwargsJson) with
         | some e => (s', .ok e.result)
         | none => wrappedInvoke
             (some (computeToolHash digest tool_name argsJson kwargsJson)) f policy now s') := by
    intro s' hp
    unfold wrappedCall
    rw [hp]
    simp only [if_true]
  constructor
  · intro e hfind
    rw [hcall s hpresent, hfind]
  · intro hok
    rw [hcall s hpresent] at hok ⊢
    cases hfind : findToolSuccess s.log
        (computeToolHash digest tool_name argsJson kwargsJson) with
    | some e =>
      simp only
      rw [hcall s hpresent, hfind]
      simp only
      omega
    | none =>
      rw [hfind] at hok
      simp only at hok ⊢
      have hinv := wrappedInvoke_ok
        (computeToolHash digest tool_name argsJson kwargsJson) f policy now s
        ((Bool.and_eq_true _ _).mp hpresent).1 hok
      obtain ⟨hinc, hid, hstore, hfound⟩ := hinv
      set s₁ := (wrappedInvoke
        (some (computeToolHash digest tool_name argsJson kwargsJson)) f policy now s).1 with hs₁
      have hpres₁ : (truthyId s₁.ctx.execution_id && s₁.ctx.hasEventStore) = true := by
        rw [hid, hstore]
        exact hpresent
      rw [hcall s₁ hpres₁]
      obtain ⟨e₁, he₁⟩ := Option.isSome_iff_exists.mp hfound
      rw [he₁]
      simp only
      omega

/-- Witness for C3 (amended) at a concrete store: a log holding a
`TOOL_CALL_SUCCESS` under the key of `double(5)` makes the wrapped call
return the stored `"10"` with the state unchanged (the callable, which would
return `"99"`, never runs). -/
theorem C3_wrapper_idempotent_witness :
    wrappedCall id "double" "[5]" "\x7b\x7d" (fun _ => .ok "99") none 0
      { log := [tcsEvent "e2" 1 (computeToolHash id "double" "[5]" "\x7b\x7d") "10"],
        ctx := { execution_id := some "e2", hasEventStore := true, step_count := 1,
                 token_usage := 0, tool_calls := 0 },
        invocations := 0 } =
    ({ log := [tcsEvent "e2" 1 (computeToolHash id "double" "[5]" "\x7b\x7d") "10"],
       ctx := { execution_id := some "e2", hasEventStore := true, step_count := 1,
                token_usage := 0, tool_calls := 0 },
       invocations := 0 }, .ok (some "10")) :=
  (C3_wrapper_idempotent id "double" "[5]" "\x7b\x7d" (fun _ => .ok "99") none 0
      { log := [tcsEvent "e2" 1 (computeToolHash id "double" "[5]" "\x7b\x7d") "10"],
        ctx := { execution_id := some "e2", hasEventStore := true, step_count := 1,
                 token_usage := 0, tool_calls := 0 },
        invocations := 0 } rfl).1
    (tcsEvent "e2" 1 (computeToolHash id "double" "[5]" "\x7b\x7d") "10") rfl

/-! ### Unfolding lemmas for the orchestrator loop at each lifecycle state -/

theorem runLoop_REVIEW (A : Bool) (eid : String) (ad : AdapterSpec)
    (P : Option StrictPolicy) (it : Nat → ℚ) (mr : Nat) (f : Nat)
    (hist : List AgentState) (ctx : OrchContext) (i : Nat) :
    runLoop A eid ad P it mr (f + 1 + 1) ⟨.REVIEW, hist⟩ ctx i =
      match (match P with
        | some p => p.validate (it i) ctx.toPolicyContext
        | none => (.ok () : Except String Unit)) with
      | .error msg =>
          { trace := [terminalPolicyEvent A eid ctx msg], ctx := ctx,
            sm := StateMachine.fail ⟨.REVIEW, hist⟩, raised := true }
      | .ok _ =>
          { trace := [stateEnterEvent eid ctx .REVIEW],
            ctx := { ctx with step_count := ctx.step_count + 1 },
            sm := ⟨.TERMINATE, hist ++ [.TERMINATE]⟩, raised := false } := by
  rcases hpv : (match P with
    | some p => p.validate (it i) ctx.toPolicyContext
    | none => (.ok () : Except String Unit)) with msg | u
  · unfold runLoop
    rw [hpv]
    cases A <;>
      simp [StateMachine.is_terminal, terminalPolicyEvent]
  · unfold runLoop
    rw [hpv]
    simp only [StateMachine.is_terminal]
    unfold runLoop
    simp [StateMachine.transition, transitionsTable, StateMachine.is_terminal]

/-- `runLoop_REVIEW` restated with the fuel written `f + 2`, the normal form
simp produces. -/
theorem runLoop_REVIEW_two (A : Bool) (eid : String) (ad : AdapterSpec)
    (P : Option StrictPolicy) (it : Nat → ℚ) (mr : Nat) (f : Nat)
    (hist : List AgentState) (ctx : OrchContext) (i : Nat) :
    runLoop A eid ad P it mr (f + 2) ⟨.REVIEW, hist⟩ ctx i =
      match (match P with
        | some p => p.validate (it i) ctx.toPolicyContext
        | none => (.ok () : Except String Unit)) with
      | .error msg =>
          { trace := [terminalPolicyEvent A eid ctx msg], ctx := ctx,
            sm := StateMachine.fail ⟨.REVIEW, hist⟩, raised := true }
      | .ok _ =>
          { trace := [stateEnterEvent eid ctx .REVIEW],
            ctx := { ctx with step_count := ctx.step_count + 1 },
            sm := ⟨.TERMINATE, hist ++ [.TERMINATE]⟩, raised := false } :=
  runLoop_REVIEW A eid ad P it mr f hist ctx i

theorem runLoop_EXECUTE (A : Bool) (eid : String) (ad : AdapterSpec)
    (P : Option StrictPolicy) (it : Nat → ℚ) (mr : Nat) (f : Nat)
    (hist : List AgentState) (ctx : OrchContext) (i : Nat) :
    runLoop A eid ad P it mr (f + 1 + 1 + 1) ⟨.EXECUTE, hist⟩ ctx i =
      match (match P with
        | some p => p.validate (it i) ctx.toPolicyContext
        | none => (.ok () : Except String Unit)) with
      | .error msg =>
          { trace := [terminalPolicyEvent A eid ctx msg], ctx := ctx,
            sm := StateMachine.fail ⟨.EXECUTE, hist⟩, raised := true }
      | .ok _ =>
        match (execute_with_retry ad.executeAttempt ad.retryable mr).1 with
        | .error msg =>
            { trace := stateEnterEvent eid ctx .EXECUTE ::
                ((execute_with_retry ad.executeAttempt ad.retryable mr).2.2.map
                  (fun p => retryAttemptedEvent eid
                    { ctx with step_count := ctx.step_count + 1 } p.2) ++
                 [executionFailedEvent eid
                    { ctx with step_count := ctx.step_count + 1 } msg]),
              ctx := { ctx with step_count := ctx.step_count + 1 },
              sm := StateMachine.fail ⟨.EXECUTE, hist⟩, raised := true }
        | .ok _ =>
          match (match P with
            | some p => p.validate (it (i + 1))
                (OrchContext.toPolicyContext
                  { step_count := ctx.step_count + 1,
                    token_usage := ctx.token_usage + ad.tokenUsage,
                    tool_calls := ctx.tool_calls })
            | none => (.ok () : Except String Unit)) with
          | .error msg₂ =>
              { trace := stateEnterEvent eid ctx .EXECUTE ::
                  ((execute_with_retry ad.executeAttempt ad.retryable mr).2.2.map
                    (fun p => retryAttemptedEvent eid
                      { ctx with step_count := ctx.step_count + 1 } p.2) ++
                   [terminalPolicyEvent A eid
                      { step_count := ctx.step_count + 1,
                        token_usage := ctx.token_usage + ad.tokenUsage,
                        tool_calls := ctx.tool_calls } msg₂]),
                ctx := { step_count := ctx.step_count + 1,
                         token_usage := ctx.token_usage + ad.tokenUsage,
                         tool_calls := ctx.tool_calls },
                sm := StateMachine.fail ⟨.REVIEW, hist ++ [.REVIEW]⟩, raised := true }
          | .ok _ =>
              { trace := stateEnterEvent eid ctx .EXECUTE ::
                  ((execute_with_retry ad.executeAttempt ad.retryable mr).2.2.map
                    (fun p => retryAttemptedEvent eid
                      { ctx with step_count := ctx.step_count + 1 } p.2) ++
                   [stateEnterEvent eid
                      { step_count := ctx.step_count + 1,
                        token_usage := ctx.token_usage + ad.tokenUsage,
                        tool_calls := ctx.tool_calls } .REVIEW]),
                ctx := { step_count := ctx.step_count + 1 + 1,
                         token_usage := ctx.token_usage + ad.tokenUsage,
                         tool_calls := ctx.tool_calls },
                sm := ⟨.TERMINATE, hist ++ [.REVIEW] ++ [.TERMINATE]⟩,
                raised := false } := by
  rcases hpv : (match P with
    | some p => p.validate (it i) ctx.toPolicyContext
    | none => (.ok () : Except String Unit)) with msg | u
  · unfold runLoop
    rw [hpv]
    cases A <;>
      simp [StateMachine.is_terminal, terminalPolicyEvent]
  · rcases hex : (execute_with_retry ad.executeAttempt ad.retryable mr).1 with msg | v
    · unfold runLoop
      rw [hpv]
      simp only [StateMachine.is_terminal]
      rw [hex]
      simp [StateMachine.is_terminal]
    · unfold runLoop
      simp only [StateMachine.is_terminal]
      rw [if_neg (by decide : ¬ decide (AgentState.EXECUTE = AgentState.TERMINATE ∨
        AgentState.EXECUTE = AgentState.FAILED) = true)]
      rw [hpv]
      simp only [StateMachine.transition, transitionsTable]
      rw [hex]
      simp only
      rw [if_pos (by decide : AgentState.REVIEW ∈ [AgentState.REVIEW, AgentState.FAILED])]
      simp only
      rw [runLoop_REVIEW]
      rcases hpv₂ : (match P with
        | some p => p.validate (it (i + 1))
            (OrchContext.toPolicyContext
              { step_count := ctx.step_count + 1,
                token_usage := ctx.token_usage + ad.tokenUsage,
                tool_calls := ctx.tool_calls })
        | none => (.ok () : Except String Unit)) with msg₂ | u₂ <;>
        rw [hpv₂] <;> simp [StateMachine.is_terminal]

/-- Retry events are never terminating. -/
theorem retryEvs_countP (eid : String) (c : OrchContext) (l : List (Nat × String)) :
    (l.map (fun p => retryAttemptedEvent eid c p.2)).countP isTerminalEv = 0 := by
  rw [List.countP_eq_zero]
  intro a ha
  obtain ⟨p, _, rfl⟩ := List.mem_map.mp ha
  simp [isTerminalEv, retryAttemptedEvent]

/-- A block of retry events (all sharing the same context) followed by a
suffix chains under `evMono` as soon as each retry event is below the head of
the suffix. -/
theorem chain'_retry_block (eid : String) (c : OrchContext) (l : List (Nat × String))
    (post : ExecutionEvent) (rest : List ExecutionEvent)
    (h2 : ∀ m, evMono (retryAttemptedEvent eid c m) post)
    (h4 : List.Chain' evMono (post :: rest)) :
    List.Chain' evMono ((l.map (fun p => retryAttemptedEvent eid c p.2)) ++ post :: rest) := by
  induction l with
  | nil => simpa using h4
  | cons a t ih =>
    simp only [List.map_cons, List.cons_append]
    cases t with
    | nil =>
      simp only [List.map_nil, List.nil_append]
      exact List.chain'_cons.mpr ⟨h2 a.2, h4⟩
    | cons b t2 =>
      refine List.chain'_cons.mpr ⟨⟨le_rfl, le_rfl, le_rfl⟩, ?_⟩
      simpa using ih

/-- Prepending an event below both the retry events and the suffix head. -/
theorem chain'_cons_retry_block (eid : String) (c : OrchContext)
    (l : List (Nat × String)) (pre post : ExecutionEvent) (rest : List ExecutionEvent)
    (h1 : ∀ m, evMono pre (retryAttemptedEvent eid c m))
    (h2 : ∀ m, evMono (retryAttemptedEvent eid c m) post)
    (h3 : evMono pre post)
    (h4 : List.Chain' evMono (post :: rest)) :
    List.Chain' evMono (pre :: ((l.map (fun p => retryAttemptedEvent eid c p.2)) ++ post :: rest)) := by
  cases l with
  | nil =>
    simp only [List.map_nil, List.nil_append]
    exact List.chain'_cons.mpr ⟨h3, h4⟩
  | cons a t =>
    simp only [List.map_cons, List.cons_append]
    refine List.chain'_cons.mpr ⟨h1 a.2, ?_⟩
    have := chain'_retry_block eid c (a :: t) post rest h2 h4
    simpa using this

/-- The step numbers of a retry block all equal the block context's
`step_count`. -/
theorem retryEvs_steps (eid : String) (c : OrchContext) (l : List (Nat × String))
    (e : ExecutionEvent) (he : e ∈ l.map (fun p => retryAttemptedEvent eid c p.2)) :
    e.step_number = c.step_count := by
  obtain ⟨p, _, rfl⟩ := List.mem_map.mp he
  rfl

/-- `replayStep` always overwrites the three counters with the event's
values, whatever the previous state. -/
theorem replayStep_counters (s : ExecutionState) (e : ExecutionEvent) :
    (replayStep s e).current_step = e.step_number ∧
    (replayStep s e).cumulative_tokens = e.cumulative_tokens ∧
    (replayStep s e).cumulative_tool_calls = e.cumulative_tool_calls := by
  unfold replayStep
  rcases e.result with _ | r <;> rcases e.error with _ | m <;>
    by_cases h : e.event_type = EvType.STATE_ENTER <;> simp [h]

/-- Folding `replayStep` over events with non-negative counters preserves
non-negativity of the accumulated state. -/
theorem foldl_replayStep_nonneg :
    ∀ (evs : List ExecutionEvent) (s : ExecutionState),
      (0 ≤ s.current_step ∧ 0 ≤ s.cumulative_tokens ∧ 0 ≤ s.cumulative_tool_calls) →
      (∀ e ∈ evs, 0 ≤ e.step_number ∧ 0 ≤ e.cumulative_tokens ∧
        0 ≤ e.cumulative_tool_calls) →
      0 ≤ (evs.foldl replayStep s).current_step ∧
      0 ≤ (evs.foldl replayStep s).cumulative_tokens ∧
      0 ≤ (evs.foldl replayStep s).cumulative_tool_calls := by
  intro evs
  induction evs with
  | nil => intro s hs _; simpa using hs
  | cons e t ih =>
    intro s _hs hall
    simp only [List.foldl_cons]
    refine ih (replayStep s e) ?_ (fun x hx => hall x (List.mem_cons_of_mem e hx))
    obtain ⟨h1, h2, h3⟩ := replayStep_counters s e
    obtain ⟨g1, g2, g3⟩ := hall e (List.mem_cons_self e t)
    rw [h1, h2, h3]
    exact ⟨g1, g2, g3⟩

/-- The replayed state of a log whose events carry non-negative step numbers
and counters is itself non-negative. -/
theorem replayToState_nonneg (log : List ExecutionEvent) (eid : String)
    (ts : Option Int)
    (h : ∀ e ∈ log, 0 ≤ e.step_number ∧ 0 ≤ e.cumulative_tokens ∧
      0 ≤ e.cumulative_tool_calls) :
    0 ≤ (replayToState log eid ts).current_step ∧
    0 ≤ (replayToState log eid ts).cumulative_tokens ∧
    0 ≤ (replayToState log eid ts).cumulative_tool_calls := by
  unfold replayToState
  exact foldl_replayStep_nonneg (getEvents log 0 ts) { execution_id := eid }
    ⟨le_rfl, le_rfl, le_rfl⟩
    (fun e he => h e (List.mem_filter.mp he).1)

/-- One unfolding of the loop at positive fuel. -/
theorem runLoop_succ (A : Bool) (eid : String) (ad : AdapterSpec)
    (P : Option StrictPolicy) (it : Nat → ℚ) (mr : Nat) (n : Nat)
    (sm : StateMachine) (ctx : OrchContext) (i : Nat) :
    runLoop A eid ad P it mr (n + 1) sm ctx i =
    (if sm.is_terminal then { trace := [], ctx := ctx, sm := sm, raised := false }
    else
      match (match P with
        | some p => p.validate (it i) ctx.toPolicyContext
        | none => (.ok () : Except String Unit)) with
      | .error msg =>
        if A then
          { trace := [executionFailedEvent eid ctx msg], ctx := ctx, sm := sm.fail, raised := true }
        else
          { trace := [policyViolationEvent eid ctx msg], ctx := ctx, sm := sm.fail, raised := true }
      | .ok _ =>
        let se := stateEnterEvent eid ctx sm.current_state
        match sm.current_state with
        | .INIT =>
          match ad.initError with
          | some msg =>
            { trace := [se, executionFailedEvent eid ctx msg], ctx := ctx,
              sm := sm.fail, raised := true }
          | none =>
            let ctx1 : OrchContext := {}
            match sm.transition .PLAN with
            | (sm1, .ok _) =>
              let out := runLoop A eid ad P it mr n sm1 ctx1 (i + 1)
              { out with trace := se :: out.trace }
            | (_, .error msg) =>
              { trace := [se, executionFailedEvent eid ctx1 msg], ctx := ctx1,
                sm := sm.fail, raised := true }
        | .PLAN =>
          let ctx1 := { ctx with step_count := ctx.step_count + 1 }
          match ad.planError with
          | some msg =>
            { trace := [se, executionFailedEvent eid ctx1 msg], ctx := ctx1,
              sm := sm.fail, raised := true }
          | none =>
            match sm.transition .EXECUTE with
            | (sm1, .ok _) =>
              let out := runLoop A eid ad P it mr n sm1 ctx1 (i + 1)
              { out with trace := se :: out.trace }
            | (_, .error msg) =>
              { trace := [se, executionFailedEvent eid ctx1 msg], ctx := ctx1,
                sm := sm.fail, raised := true }
        | .EXECUTE =>
          let ctx1 := { ctx with step_count := ctx.step_count + 1 }
          let r := execute_with_retry ad.executeAttempt ad.retryable mr
          let retryEvs := r.2.2.map (fun p => retryAttemptedEvent eid ctx1 p.2)
          match r.1 with
          | .error msg =>
            { trace := se :: retryEvs ++ [executionFailedEvent eid ctx1 msg], ctx := ctx1,
              sm := sm.fail, raised := true }
          | .ok _ =>
            let ctx2 := { ctx1 with token_usage := ctx1.token_usage + ad.tokenUsage }
            match sm.transition .REVIEW with
            | (sm1, .ok _) =>
              let out := runLoop A eid ad P it mr n sm1 ctx2 (i + 1)
              { out with trace := se :: retryEvs ++ out.trace }
            | (_, .error msg) =>
              { trace := se :: retryEvs ++ [executionFailedEvent eid ctx2 msg], ctx := ctx2,
                sm := sm.fail, raised := true }
        | .REVIEW =>
          let ctx1 := { ctx with step_count := ctx.step_count + 1 }
          match sm.transition .TERMINATE with
          | (sm1, .ok _) =>
            let out := runLoop A eid ad P it mr n sm1 ctx1 (i + 1)
            { out with trace := se :: out.trace }
          | (_, .error msg) =>
            { trace := [se, executionFailedEvent eid ctx1 msg], ctx := ctx1,
              sm := sm.fail, raised := true }
        | _ => { trace := [], ctx := ctx, sm := sm, raised := false }) := rfl

set_option maxHeartbeats 1000000

theorem terminalPolicyEvent_false (eid : String) (c : OrchContext) (msg : String) :
    terminalPolicyEvent false eid c msg = policyViolationEvent eid c msg := rfl

theorem terminalPolicyEvent_true (eid : String) (c : OrchContext) (msg : String) :
    terminalPolicyEvent true eid c msg = executionFailedEvent eid c msg := rfl

theorem getLast?_cons_append_singleton (a : α) (l : List α) (b : α) :
    (a :: (l ++ [b])).getLast? = some b := by
  rw [← List.cons_append, List.getLast?_concat]

theorem runTrace_good (A : Bool) (eid : String) (ad : AdapterSpec)
    (policy : Option StrictPolicy) (t0 : ℚ) (it : Nat → ℚ) (mr : Nat)
    (priorLog : List ExecutionEvent) (fromStep : Option Int)
    (htok : 0 ≤ ad.tokenUsage)
    (hprior : ∀ e ∈ priorLog, 0 ≤ e.step_number ∧ 0 ≤ e.cumulative_tokens ∧
      0 ≤ e.cumulative_tool_calls) :
    GoodTrace (orchestratorRun A eid ad policy t0 it mr priorLog fromStep).trace := by
  unfold orchestratorRun
  cases fromStep with
  | none =>
    dsimp only
    rw [show (5:Nat) = 0+1+1+1+1+1 from rfl, runLoop_succ]
    rw [if_neg (by decide : ¬(StateMachine.init.is_terminal = true))]
    split
    next msg heq =>
      cases A <;>
      · simp only [runFinish, Bool.false_eq_true, Bool.true_eq_false, eq_self_iff_true,
          if_true, if_false, ite_true, ite_false]
        refine ⟨?_, ?_, by simp, ?_, ?_⟩
        · simp [List.chain'_cons, evMono, executionStartedEvent, executionFailedEvent, policyViolationEvent]
        · simp [List.countP_cons, isTerminalEv, executionStartedEvent, executionFailedEvent, policyViolationEvent]
        · intro e hl
          simp only [List.getLast?_cons_cons, List.getLast?_singleton] at hl
          obtain rfl := Option.some.inj hl
          simp [isTerminalEv, executionFailedEvent, policyViolationEvent]
        · intro e he
          simp only [List.mem_cons, List.not_mem_nil, or_false] at he
          rcases he with rfl | rfl <;> simp [executionStartedEvent, executionFailedEvent, policyViolationEvent]
    next u heq =>
      simp only [StateMachine.init]
      split
      next msg heq2 =>
        simp only [runFinish, Bool.false_eq_true, Bool.true_eq_false, eq_self_iff_true,
          if_true, if_false, ite_true, ite_false]
        refine ⟨?_, ?_, by simp, ?_, ?_⟩
        · simp [List.chain'_cons, evMono, executionStartedEvent, stateEnterEvent, executionFailedEvent]
        · simp [List.countP_cons, isTerminalEv, executionStartedEvent, stateEnterEvent, executionFailedEvent]
        · intro e hl
          simp only [List.getLast?_cons_cons, List.getLast?_singleton] at hl
          obtain rfl := Option.some.inj hl
          simp [isTerminalEv, executionFailedEvent]
        · intro e he
          simp only [List.mem_cons, List.not_mem_nil, or_false] at he
          rcases he with rfl | rfl | rfl <;> simp [executionStartedEvent, stateEnterEvent, executionFailedEvent]
      next heq2 =>
        simp only [StateMachine.transition, transitionsTable]
        rw [if_pos (by decide : AgentState.PLAN ∈ [AgentState.PLAN, AgentState.FAILED])]
        dsimp only
        rw [show (4:Nat) = 0+1+1+1+1 from rfl, runLoop_succ]
        rw [if_neg (by decide : ¬((⟨AgentState.PLAN, [AgentState.INIT] ++ [AgentState.PLAN]⟩ : StateMachine).is_terminal = true))]
        split
        next msg1 heq3 =>
          cases A <;>
          · simp only [runFinish, Bool.false_eq_true, Bool.true_eq_false, eq_self_iff_true,
          if_true, if_false, ite_true, ite_false]
            refine ⟨?_, ?_, by simp, ?_, ?_⟩
            · simp [List.chain'_cons, evMono, executionStartedEvent, stateEnterEvent, executionFailedEvent, policyViolationEvent]
            · simp [List.countP_cons, isTerminalEv, executionStartedEvent, stateEnterEvent, executionFailedEvent, policyViolationEvent]
            · intro e hl
              simp only [List.getLast?_cons_cons, List.getLast?_singleton] at hl
              obtain rfl := Option.some.inj hl
              simp [isTerminalEv, executionFailedEvent, policyViolationEvent]
            · intro e he
              simp only [List.mem_cons, List.not_mem_nil, or_false] at he
              rcases he with rfl | rfl | rfl <;> simp [executionStartedEvent, stateEnterEvent, executionFailedEvent, policyViolationEvent]
        next u1 heq3 =>
          dsimp only
          split
          next msg heq4 =>
            simp only [runFinish, Bool.false_eq_true, Bool.true_eq_false, eq_self_iff_true,
          if_true, if_false, ite_true, ite_false]
            refine ⟨?_, ?_, by simp, ?_, ?_⟩
            · simp [List.chain'_cons, evMono, executionStartedEvent, stateEnterEvent, executionFailedEvent]
            · simp [List.countP_cons, isTerminalEv, executionStartedEvent, stateEnterEvent, executionFailedEvent]
            · intro e hl
              simp only [List.getLast?_cons_cons, List.getLast?_singleton] at hl
              obtain rfl := Option.some.inj hl
              simp [isTerminalEv, executionFailedEvent]
            · intro e he
              simp only [List.mem_cons, List.not_mem_nil, or_false] at he
              rcases he with rfl | rfl | rfl | rfl <;> simp [executionStartedEvent, stateEnterEvent, executionFailedEvent]
          next heq4 =>
            simp only [StateMachine.transition, transitionsTable]
            rw [if_pos (by decide : AgentState.EXECUTE ∈ [AgentState.EXECUTE, AgentState.FAILED])]
            dsimp only
            rw [show (3:Nat) = 0+1+1+1 from rfl, runLoop_EXECUTE]
            split
            next msg heq5 =>
              cases A <;>
              · simp only [runFinish, terminalPolicyEvent, Bool.false_eq_true, Bool.true_eq_false,
          eq_self_iff_true, if_true, if_false, ite_true, ite_false]
                refine ⟨?_, ?_, by simp, ?_, ?_⟩
                · simp [List.chain'_cons, evMono, executionStartedEvent, stateEnterEvent, executionFailedEvent, policyViolationEvent]
                · simp [List.countP_cons, isTerminalEv, executionStartedEvent, stateEnterEvent, executionFailedEvent, policyViolationEvent]
                · intro e hl
                  simp only [List.getLast?_cons_cons, List.getLast?_singleton] at hl
                  obtain rfl := Option.some.inj hl
                  simp [isTerminalEv, executionFailedEvent, policyViolationEvent]
                · intro e he
                  simp only [List.mem_cons, List.not_mem_nil, or_false] at he
                  rcases he with rfl | rfl | rfl | rfl <;> simp [executionStartedEvent, stateEnterEvent, executionFailedEvent, policyViolationEvent]
            next u2 heq5 =>
              split
              next msg heq6 =>
                simp only [runFinish, Bool.false_eq_true, Bool.true_eq_false, eq_self_iff_true,
          if_true, if_false, ite_true, ite_false]
                refine ⟨?_, ?_, by simp, ?_, ?_⟩
                · refine List.chain'_cons.mpr ⟨by simp [evMono, executionStartedEvent, stateEnterEvent], ?_⟩
                  refine List.chain'_cons.mpr ⟨by simp [evMono, stateEnterEvent], ?_⟩
                  refine List.chain'_cons.mpr ⟨by simp [evMono, stateEnterEvent], ?_⟩
                  exact chain'_cons_retry_block _ _ _ _ _ _
                    (fun m => by simp [evMono, stateEnterEvent, retryAttemptedEvent])
                    (fun m => by simp [evMono, retryAttemptedEvent, executionFailedEvent])
                    (by simp [evMono, stateEnterEvent, executionFailedEvent])
                    (by simp)
                · simp [List.countP_cons, List.countP_append, retryEvs_countP,
                    isTerminalEv, executionStartedEvent, stateEnterEvent,
                    executionFailedEvent]
                  intro a b _hab
                  simp [retryAttemptedEvent]
                · intro e hl
                  simp only [List.getLast?_cons_cons] at hl
                  rw [getLast?_cons_append_singleton] at hl
                  obtain rfl := Option.some.inj hl
                  simp [isTerminalEv, executionFailedEvent]
                · intro e he
                  simp only [List.mem_cons, List.mem_append, List.mem_map, List.mem_singleton,
                    List.not_mem_nil, or_false] at he
                  rcases he with rfl | rfl | rfl | rfl | ⟨p, hp, rfl⟩ | rfl <;>
                    simp [executionStartedEvent, stateEnterEvent, retryAttemptedEvent,
                      executionFailedEvent]
              next v heq6 =>
                split
                next msg2 heq7 =>
                  cases A <;>
                  · simp only [runFinish, terminalPolicyEvent_false, terminalPolicyEvent_true,
                      Bool.false_eq_true, Bool.true_eq_false, eq_self_iff_true,
                      if_true, if_false, ite_true, ite_false]
                    refine ⟨?_, ?_, by simp, ?_, ?_⟩
                    · refine List.chain'_cons.mpr ⟨by simp [evMono, executionStartedEvent, stateEnterEvent], ?_⟩
                      refine List.chain'_cons.mpr ⟨by simp [evMono, stateEnterEvent], ?_⟩
                      refine List.chain'_cons.mpr ⟨by simp [evMono, stateEnterEvent], ?_⟩
                      refine chain'_cons_retry_block _ _ _ _ _ _
                        (fun m => by simp [evMono, stateEnterEvent, retryAttemptedEvent])
                        (fun m => by
                          refine ⟨?_, ?_, ?_⟩ <;>
                            simp [evMono, retryAttemptedEvent, executionFailedEvent,
                              policyViolationEvent] <;> omega)
                        (by
                          refine ⟨?_, ?_, ?_⟩ <;>
                            simp [evMono, stateEnterEvent, executionFailedEvent,
                              policyViolationEvent] <;> omega)
                        (by simp)
                    · simp [List.countP_cons, List.countP_append, retryEvs_countP,
                        isTerminalEv, executionStartedEvent, stateEnterEvent,
                        executionFailedEvent, policyViolationEvent]
                      intro a b _hab
                      simp [retryAttemptedEvent]
                    · intro e hl
                      simp only [List.getLast?_cons_cons] at hl
                      rw [getLast?_cons_append_singleton] at hl
                      obtain rfl := Option.some.inj hl
                      simp [isTerminalEv, executionFailedEvent, policyViolationEvent]
                    · intro e he
                      simp only [List.mem_cons, List.mem_append, List.mem_map, List.mem_singleton,
                        List.not_mem_nil, or_false] at he
                      rcases he with rfl | rfl | rfl | rfl | ⟨p, hp, rfl⟩ | rfl <;>
                        simp [executionStartedEvent, stateEnterEvent, retryAttemptedEvent,
                          executionFailedEvent, policyViolationEvent]
                next u3 heq7 =>
                  simp only [runFinish, Bool.false_eq_true, Bool.true_eq_false, eq_self_iff_true,
          if_true, if_false, ite_true, ite_false]
                  refine ⟨?_, ?_, by simp, ?_, ?_⟩
                  · simp only [List.cons_append, List.append_assoc, List.nil_append,
                      List.singleton_append]
                    refine List.chain'_cons.mpr ⟨by simp [evMono, executionStartedEvent, stateEnterEvent], ?_⟩
                    refine List.chain'_cons.mpr ⟨by simp [evMono, stateEnterEvent], ?_⟩
                    refine List.chain'_cons.mpr ⟨by simp [evMono, stateEnterEvent], ?_⟩
                    refine chain'_cons_retry_block _ _ _ _ _ _
                      (fun m => by simp [evMono, stateEnterEvent, retryAttemptedEvent])
                      (fun m => by
                        refine ⟨?_, ?_, ?_⟩ <;>
                          simp [evMono, retryAttemptedEvent, stateEnterEvent] <;> omega)
                      (by
                        refine ⟨?_, ?_, ?_⟩ <;>
                          simp [evMono, stateEnterEvent] <;> omega)
                      (by
                        refine List.chain'_cons.mpr ⟨?_, by simp⟩
                        refine ⟨?_, ?_, ?_⟩ <;>
                          simp [evMono, stateEnterEvent, executionCompletedEvent] <;> omega)
                  · simp [List.countP_cons, List.countP_append, retryEvs_countP,
                      isTerminalEv, executionStartedEvent, stateEnterEvent,
                      executionCompletedEvent]
                    intro a b _hab
                    simp [retryAttemptedEvent]
                  · intro e hl
                    rw [List.getLast?_concat] at hl
                    obtain rfl := Option.some.inj hl
                    simp [isTerminalEv, executionCompletedEvent]
                  · intro e he
                    simp only [List.mem_cons, List.mem_append, List.mem_map, List.mem_singleton,
                      List.not_mem_nil, or_false] at he
                    rcases he with (rfl | rfl | rfl | rfl | ⟨p, hp, rfl⟩ | rfl) | rfl <;>
                      simp [executionStartedEvent, stateEnterEvent, retryAttemptedEvent,
                        executionCompletedEvent]
  | some k =>
    dsimp only
    obtain ⟨hrs, hrt, hrc⟩ := replayToState_nonneg priorLog eid (some k) hprior
    split
    next msg heq0 =>
      cases A <;>
      · simp only [Bool.false_eq_true, Bool.true_eq_false, eq_self_iff_true,
          if_true, if_false, ite_true, ite_false]
        refine ⟨?_, ?_, by simp, ?_, ?_⟩
        · simp [List.chain'_cons, evMono, executionStartedEvent, executionFailedEvent] <;>
            constructor <;> first | omega | constructor <;> omega
        · simp [List.countP_cons, isTerminalEv, executionStartedEvent, executionFailedEvent]
        · intro e hl
          simp only [List.getLast?_cons_cons, List.getLast?_singleton] at hl
          obtain rfl := Option.some.inj hl
          simp [isTerminalEv, executionFailedEvent]
        · intro e he
          simp only [List.mem_cons, List.not_mem_nil, or_false] at he
          rcases he with rfl | rfl <;> simp [executionStartedEvent, executionFailedEvent] <;> omega
    next heq0 =>
      rw [show StateMachine.init.set_state AgentState.EXECUTE =
        (⟨AgentState.EXECUTE, [AgentState.INIT] ++ [AgentState.EXECUTE]⟩ : StateMachine) from by
          simp [StateMachine.set_state, StateMachine.init]]
      rw [show (5:Nat) = 2+1+1+1 from rfl, runLoop_EXECUTE]
      split
      next msg heqp =>
        cases A <;>
        · simp only [runFinish, terminalPolicyEvent, Bool.false_eq_true, Bool.true_eq_false,
          eq_self_iff_true, if_true, if_false, ite_true, ite_false]
          refine ⟨?_, ?_, by simp, ?_, ?_⟩
          · simp [List.chain'_cons, evMono, executionStartedEvent, executionFailedEvent, policyViolationEvent]
          · simp [List.countP_cons, isTerminalEv, executionStartedEvent, executionFailedEvent, policyViolationEvent]
          · intro e hl
            simp only [List.getLast?_cons_cons, List.getLast?_singleton] at hl
            obtain rfl := Option.some.inj hl
            simp [isTerminalEv, executionFailedEvent, policyViolationEvent]
          · intro e he
            simp only [List.mem_cons, List.not_mem_nil, or_false] at he
            rcases he with rfl | rfl <;> simp [executionStartedEvent, executionFailedEvent, policyViolationEvent]
      next u2 heqp =>
        split
        next msg heqe =>
          simp only [runFinish, Bool.false_eq_true, Bool.true_eq_false, eq_self_iff_true,
          if_true, if_false, ite_true, ite_false]
          refine ⟨?_, ?_, by simp, ?_, ?_⟩
          · refine List.chain'_cons.mpr ⟨by simp [evMono, executionStartedEvent, stateEnterEvent], ?_⟩
            exact chain'_cons_retry_block _ _ _ _ _ _
              (fun m => by simp [evMono, stateEnterEvent, retryAttemptedEvent])
              (fun m => by simp [evMono, retryAttemptedEvent, executionFailedEvent])
              (by simp [evMono, stateEnterEvent, executionFailedEvent])
              (by simp)
          · simp [List.countP_cons, List.countP_append, retryEvs_countP,
              isTerminalEv, executionStartedEvent, stateEnterEvent, executionFailedEvent]
            intro a b _hab
            simp [retryAttemptedEvent]
          · intro e hl
            simp only [List.getLast?_cons_cons] at hl
            rw [getLast?_cons_append_singleton] at hl
            obtain rfl := Option.some.inj hl
            simp [isTerminalEv, executionFailedEvent]
          · intro e he
            simp only [List.mem_cons, List.mem_append, List.mem_map, List.mem_singleton,
              List.not_mem_nil, or_false] at he
            rcases he with rfl | rfl | ⟨p, hp, rfl⟩ | rfl <;>
              simp [executionStartedEvent, stateEnterEvent, retryAttemptedEvent,
                executionFailedEvent]
        next v heqe =>
          split
          next msg2 heqr =>
            cases A <;>
            · simp only [runFinish, terminalPolicyEvent_false, terminalPolicyEvent_true,
                Bool.false_eq_true, Bool.true_eq_false, eq_self_iff_true,
                if_true, if_false, ite_true, ite_false]
              refine ⟨?_, ?_, by simp, ?_, ?_⟩
              · refine List.chain'_cons.mpr ⟨by simp [evMono, executionStartedEvent, stateEnterEvent], ?_⟩
                refine chain'_cons_retry_block _ _ _ _ _ _
                  (fun m => by simp [evMono, stateEnterEvent, retryAttemptedEvent])
                  (fun m => by
                    refine ⟨?_, ?_, ?_⟩ <;>
                      simp [evMono, retryAttemptedEvent, executionFailedEvent,
                        policyViolationEvent] <;> omega)
                  (by
                    refine ⟨?_, ?_, ?_⟩ <;>
                      simp [evMono, stateEnterEvent, executionFailedEvent,
                        policyViolationEvent] <;> omega)
                  (by simp)
              · simp [List.countP_cons, List.countP_append, retryEvs_countP,
                  isTerminalEv, executionStartedEvent, stateEnterEvent,
                  executionFailedEvent, policyViolationEvent]
                intro a b _hab
                simp [retryAttemptedEvent]
              · intro e hl
                simp only [List.getLast?_cons_cons] at hl
                rw [getLast?_cons_append_singleton] at hl
                obtain rfl := Option.some.inj hl
                simp [isTerminalEv, executionFailedEvent, policyViolationEvent]
              · intro e he
                simp only [List.mem_cons, List.mem_append, List.mem_map, List.mem_singleton,
                  List.not_mem_nil, or_false] at he
                rcases he with rfl | rfl | ⟨p, hp, rfl⟩ | rfl <;>
                  simp [executionStartedEvent, stateEnterEvent, retryAttemptedEvent,
                    executionFailedEvent, policyViolationEvent]
          next u3 heqr =>
            simp only [runFinish, Bool.false_eq_true, Bool.true_eq_false, eq_self_iff_true,
          if_true, if_false, ite_true, ite_false]
            refine ⟨?_, ?_, by simp, ?_, ?_⟩
            · simp only [List.cons_append, List.append_assoc, List.nil_append,
                List.singleton_append]
              refine List.chain'_cons.mpr ⟨by simp [evMono, executionStartedEvent, stateEnterEvent], ?_⟩
              refine chain'_cons_retry_block _ _ _ _ _ _
                (fun m => by simp [evMono, stateEnterEvent, retryAttemptedEvent])
                (fun m => by
                  refine ⟨?_, ?_, ?_⟩ <;>
                    simp [evMono, retryAttemptedEvent, stateEnterEvent] <;> omega)
                (by
                  refine ⟨?_, ?_, ?_⟩ <;>
                    simp [evMono, stateEnterEvent] <;> omega)
                (by
                  refine List.chain'_cons.mpr ⟨?_, by simp⟩
                  refine ⟨?_, ?_, ?_⟩ <;>
                    simp [evMono, stateEnterEvent, executionCompletedEvent] <;> omega)
            · simp [List.countP_cons, List.countP_append, retryEvs_countP,
                isTerminalEv, executionStartedEvent, stateEnterEvent,
                executionCompletedEvent]
              intro a b _hab
              simp [retryAttemptedEvent]
            · intro e hl
              rw [List.getLast?_concat] at hl
              obtain rfl := Option.some.inj hl
              simp [isTerminalEv, executionCompletedEvent]
            · intro e he
              simp only [List.mem_cons, List.mem_append, List.mem_map, List.mem_singleton,
                List.not_mem_nil, or_false] at he
              rcases he with (rfl | rfl | ⟨p, hp, rfl⟩ | rfl) | rfl <;>
                simp [executionStartedEvent, stateEnterEvent, retryAttemptedEvent,
                  executionCompletedEvent]

/-! ### Event-store lemmas -/

/-- `append_event` always leaves the stored list sorted by `step_number`. -/
theorem appendEvent_sorted (log : List ExecutionEvent) (e : ExecutionEvent) :
    (appendEvent log e).Sorted stepLe :=
  List.sorted_insertionSort stepLe (log ++ [e])

/-- The store after committing a trace holds exactly the prior events plus
the appended ones (as a multiset). -/
theorem commitTrace_perm :
    ∀ (tr store : List ExecutionEvent), (commitTrace store tr).Perm (store ++ tr) := by
  intro tr
  induction tr with
  | nil => intro store; simp [commitTrace]
  | cons e ts ih =>
    intro store
    have h1 : (commitTrace store (e :: ts)) = commitTrace (appendEvent store e) ts := rfl
    rw [h1]
    refine (ih (appendEvent store e)).trans ?_
    have h2 : (appendEvent store e).Perm (store ++ [e]) :=
      List.perm_insertionSort stepLe _
    have h3 : ((appendEvent store e) ++ ts).Perm ((store ++ [e]) ++ ts) :=
      h2.append_right ts
    refine h3.trans ?_
    rw [List.append_assoc]
    exact List.Perm.refl _

/-- Committing an already-ordered trace onto a compatible store is a plain
append (each `append_event` sort is the identity). -/
theorem commitTrace_sorted_eq :
    ∀ (tr store : List ExecutionEvent), (store ++ tr).Sorted stepLe →
      commitTrace store tr = store ++ tr := by
  intro tr
  induction tr with
  | nil => intro store _; simp [commitTrace]
  | cons e ts ih =>
    intro store hs
    have hsub : (store ++ [e]).Sublist (store ++ e :: ts) :=
      List.Sublist.append_left ((List.nil_sublist ts).cons₂ e) store
    have hse : (store ++ [e]).Sorted stepLe := List.Pairwise.sublist hsub hs
    have h1 : commitTrace store (e :: ts) = commitTrace (appendEvent store e) ts := rfl
    have h2 : appendEvent store e = store ++ [e] := hse.insertionSort_eq
    rw [h1, h2, ih (store ++ [e]) (by rwa [List.append_assoc, List.singleton_append])]
    rw [List.append_assoc, List.singleton_append]

/-- A trace whose consecutive events are monotone is sorted by step number. -/
theorem chain'_evMono_sorted (tr : List ExecutionEvent)
    (h : tr.Chain' evMono) : tr.Sorted stepLe :=
  List.chain'_iff_pairwise.mp (h.imp (fun _ _ hab => hab.1))

/-- `get_events` on a sorted store returns exactly the stored events inside
the inclusive step range, in non-decreasing step order. -/
theorem getEvents_spec (store : List ExecutionEvent) (hs : store.Sorted stepLe)
    (f : Int) (t : Option Int) :
    ((getEvents store f t).Sorted stepLe)
    ∧ (∀ e, e ∈ getEvents store f t ↔ e ∈ store ∧ f ≤ e.step_number ∧
        (∀ b, t = some b → e.step_number ≤ b)) := by
  constructor
  · exact List.Pairwise.filter _ hs
  · intro e
    unfold getEvents
    rw [List.mem_filter]
    constructor
    · rintro ⟨hmem, hp⟩
      rw [Bool.and_eq_true] at hp
      refine ⟨hmem, by simpa using hp.1, ?_⟩
      intro b hb
      rw [hb] at hp
      simpa using hp.2
    · rintro ⟨hmem, h1, h2⟩
      refine ⟨hmem, ?_⟩
      rw [Bool.and_eq_true]
      refine ⟨by simpa using h1, ?_⟩
      cases t with
      | none => simp
      | some b => simpa using h2 b rfl

/-- On a store whose steps are all non-negative, the full read
(`from_step = 0`, no upper bound) returns the store itself. -/
theorem getEvents_all (store : List ExecutionEvent)
    (h : ∀ e ∈ store, 0 ≤ e.step_number) :
    getEvents store 0 none = store := by
  unfold getEvents
  rw [List.filter_eq_self]
  intro e he
  simpa using h e he

/-- Fresh runs (no `from_step`) begin their appended trace with
`EXECUTION_STARTED` followed by the first `STATE_ENTER` (for INIT), here for
runs without a policy. -/
theorem runFresh_head (A : Bool) (eid : String) (ad : AdapterSpec)
    (t0 : ℚ) (it : Nat → ℚ) (mr : Nat) :
    ∃ rest, (orchestratorRun A eid ad none t0 it mr [] none).trace =
      executionStartedEvent eid :: stateEnterEvent eid {} .INIT :: rest := by
  unfold orchestratorRun
  dsimp only [Option.map]
  rw [show (5:Nat) = 4+1 from rfl, runLoop_succ]
  rw [if_neg (by decide : ¬(StateMachine.init.is_terminal = true))]
  dsimp only
  simp only [StateMachine.init]
  split
  next msg heq =>
    exact ⟨_, rfl⟩
  next heq =>
    simp only [StateMachine.transition, transitionsTable]
    rw [if_pos (by decide : AgentState.PLAN ∈ [AgentState.PLAN, AgentState.FAILED])]
    dsimp only
    simp only [runFinish]
    split
    · exact ⟨_, rfl⟩
    · exact ⟨_, by rw [List.cons_append, List.cons_append]⟩

set_option maxRecDepth 4000

/-- C2 (counterexample to the cross-run reading): the events appended for
execution "e1" by a failed fresh run followed by a resumed run (`from_step =
2`) are not monotone at the run boundary: the prior run ends with
`EXECUTION_FAILED` at step 2 and the resumed run then appends
`EXECUTION_STARTED` at step 0. -/
theorem C2_consecutive_monotonicity_counterexample :
    ¬ ((orchestratorRun false "e1" failingAdapter none 0 (fun _ => 0) 0 [] none).trace
        ++ resumedRun.trace).Chain' evMono ∧
    ((orchestratorRun false "e1" failingAdapter none 0 (fun _ => 0) 0 [] none).trace
        ++ resumedRun.trace).map ExecutionEvent.step_number =
      [0, 0, 0, 1, 2, 0, 0, 1, 2] := by
  have hmap : ((orchestratorRun false "e1" failingAdapter none 0 (fun _ => 0) 0 [] none).trace
      ++ resumedRun.trace).map ExecutionEvent.step_number =
      [0, 0, 0, 1, 2, 0, 0, 1, 2] := by decide
  refine ⟨?_, hmap⟩
  intro hch
  have h2 : (((orchestratorRun false "e1" failingAdapter none 0 (fun _ => 0) 0 [] none).trace
      ++ resumedRun.trace).map ExecutionEvent.step_number).Chain' (· ≤ ·) :=
    (List.chain'_map _).mpr (hch.imp (fun _ _ hab => hab.1))
  rw [hmap] at h2
  simp [List.chain'_cons] at h2

/-- C2 (amended): within a single call to `run` / `run_async` every pair of
consecutive appended events (a, b) satisfies a.step_number ≤ b.step_number,
a.cumulative_tokens ≤ b.cumulative_tokens and a.cumulative_tool_calls ≤
b.cumulative_tool_calls, given a non-negative adapter token usage and a prior
log with non-negative counters; across two runs of the same execution (a
resume) the property fails at the run boundary. -/
theorem C2_run_monotonic (A : Bool) (eid : String) (ad : AdapterSpec)
    (policy : Option StrictPolicy) (t0 : ℚ) (it : Nat → ℚ) (mr : Nat)
    (priorLog : List ExecutionEvent) (fromStep : Option Int)
    (htok : 0 ≤ ad.tokenUsage)
    (hprior : ∀ e ∈ priorLog, 0 ≤ e.step_number ∧ 0 ≤ e.cumulative_tokens ∧
      0 ≤ e.cumulative_tool_calls) :
    (orchestratorRun A eid ad policy t0 it mr priorLog fromStep).trace.Chain' evMono :=
  (runTrace_good A eid ad policy t0 it mr priorLog fromStep htok hprior).1

theorem C2_run_monotonic_witness :
    (0 ≤ succeedingAdapter.tokenUsage ∧
      ∀ e ∈ ([] : List ExecutionEvent), 0 ≤ e.step_number ∧ 0 ≤ e.cumulative_tokens ∧
        0 ≤ e.cumulative_tool_calls) ∧
    (orchestratorRun false "e2" succeedingAdapter none 0 (fun _ => 0) 0 [] none).trace.Chain'
      evMono :=
  ⟨⟨by decide, by simp⟩,
    C2_run_monotonic false "e2" succeedingAdapter none 0 (fun _ => 0) 0 [] none
      (by decide) (by simp)⟩

/-- C1 (counterexample to the resumed-execution part): after execution "e1"
fails in a fresh run and is then resumed with `from_step = 2` to completion,
its event log as returned by the full `get_events` read holds two terminating
events (the prior run's `EXECUTION_FAILED` and the resumed run's
`EXECUTION_COMPLETED`), not exactly one. -/
theorem C1_terminal_count_counterexample :
    (getEvents (commitTrace crashedStore resumedRun.trace) 0 none).countP isTerminalEv
      = 2 := by
  decide

/-- C1 (amended): every call to `run` / `run_async` appends exactly one
terminating event and appends it last; for a fresh execution (empty prior
log, no `from_step`) the store afterwards is exactly the appended trace and
`get_events(execution_id)` returns it unchanged, so the full read holds
exactly one terminating event and it is the last event returned. -/
theorem C1_run_terminal_event (A : Bool) (eid : String) (ad : AdapterSpec)
    (policy : Option StrictPolicy) (t0 : ℚ) (it : Nat → ℚ) (mr : Nat)
    (priorLog : List ExecutionEvent) (fromStep : Option Int)
    (htok : 0 ≤ ad.tokenUsage)
    (hprior : ∀ e ∈ priorLog, 0 ≤ e.step_number ∧ 0 ≤ e.cumulative_tokens ∧
      0 ≤ e.cumulative_tool_calls) :
    ((orchestratorRun A eid ad policy t0 it mr priorLog fromStep).trace.countP isTerminalEv
        = 1
      ∧ (∀ e, (orchestratorRun A eid ad policy t0 it mr priorLog fromStep).trace.getLast?
          = some e → isTerminalEv e = true))
    ∧ (priorLog = [] → fromStep = none →
        getEvents
            (commitTrace []
              (orchestratorRun A eid ad policy t0 it mr priorLog fromStep).trace)
            0 none
          = (orchestratorRun A eid ad policy t0 it mr priorLog fromStep).trace) := by
  obtain ⟨hchain, hcount, hne, hlast, hpos⟩ :=
    runTrace_good A eid ad policy t0 it mr priorLog fromStep htok hprior
  refine ⟨⟨hcount, hlast⟩, ?_⟩
  intro h1 h2
  have hsorted := chain'_evMono_sorted _ hchain
  have hcommit := commitTrace_sorted_eq
    (orchestratorRun A eid ad policy t0 it mr priorLog fromStep).trace [] (by simpa using hsorted)
  rw [hcommit]
  simp only [List.nil_append]
  exact getEvents_all _ hpos

theorem C1_run_terminal_event_witness :
    (0 ≤ succeedingAdapter.tokenUsage ∧
      ∀ e ∈ ([] : List ExecutionEvent), 0 ≤ e.step_number ∧ 0 ≤ e.cumulative_tokens ∧
        0 ≤ e.cumulative_tool_calls) ∧
    (orchestratorRun false "e2" succeedingAdapter none 0 (fun _ => 0) 0 [] none).trace.countP
      isTerminalEv = 1 :=
  ⟨⟨by decide, by simp⟩,
    (C1_run_terminal_event false "e2" succeedingAdapter none 0 (fun _ => 0) 0 [] none
      (by decide) (by simp)).1.1⟩

/-- C8 (counterexample to strictness): the log of a fresh, successful run
("e2") as returned by the full `get_events` read contains distinct events
sharing a step_number (EXECUTION_STARTED and the first STATE_ENTER both carry
step 0), so the returned order is not strictly ascending. -/
theorem C8_strict_order_counterexample :
    ¬ ((getEvents happyStore 0 none).Chain'
        (fun a b => a.step_number < b.step_number)) ∧
    (getEvents happyStore 0 none).map ExecutionEvent.step_number =
      [0, 0, 0, 1, 2, 3] := by
  have hmap : (getEvents happyStore 0 none).map ExecutionEvent.step_number =
      [0, 0, 0, 1, 2, 3] := by decide
  refine ⟨?_, hmap⟩
  intro hch
  have h2 : ((getEvents happyStore 0 none).map ExecutionEvent.step_number).Chain' (· < ·) :=
    (List.chain'_map _).mpr hch
  rw [hmap] at h2
  simp [List.chain'_cons] at h2

/-- C8 (amended): on a store sorted by step_number (an invariant
`append_event` maintains and every store reachable by `append_event` has),
`get_events(execution_id, from_step, to_step)` returns exactly the stored
events with from_step ≤ step_number ≤ to_step (`to_step = None` meaning no
upper bound), ordered by step_number ascending but not strictly (distinct
events may share a step_number); committing a trace stores exactly the prior
plus appended events; and the orchestrator's fresh logs (shown for runs
without a policy) begin with EXECUTION_STARTED followed by the first
STATE_ENTER, both at step 0. -/
theorem C8_getEvents_ordered (store : List ExecutionEvent)
    (hs : store.Sorted stepLe) (f : Int) (t : Option Int) :
    ((getEvents store f t).Sorted stepLe
      ∧ (∀ e, e ∈ getEvents store f t ↔ e ∈ store ∧ f ≤ e.step_number ∧
          (∀ b, t = some b → e.step_number ≤ b)))
    ∧ (∀ (log : List ExecutionEvent) (e : ExecutionEvent),
        (appendEvent log e).Sorted stepLe)
    ∧ (∀ s₀ tr : List ExecutionEvent, (commitTrace s₀ tr).Perm (s₀ ++ tr))
    ∧ (∀ (A : Bool) (eid : String) (ad : AdapterSpec) (t0 : ℚ) (it : Nat → ℚ)
        (mr : Nat),
        (∃ rest, (orchestratorRun A eid ad none t0 it mr [] none).trace =
          executionStartedEvent eid :: stateEnterEvent eid {} .INIT :: rest)
        ∧ (executionStartedEvent eid).step_number = 0
        ∧ (stateEnterEvent eid {} AgentState.INIT).step_number = 0) := by
  refine ⟨getEvents_spec store hs f t, appendEvent_sorted, fun s₀ tr => commitTrace_perm tr s₀,
    fun A eid ad t0 it mr => ⟨runFresh_head A eid ad t0 it mr, rfl, rfl⟩⟩

theorem C8_getEvents_ordered_witness :
    happyStore.Sorted stepLe ∧
    ((getEvents happyStore 0 none).Sorted stepLe
      ∧ (∀ e, e ∈ getEvents happyStore 0 none ↔ e ∈ happyStore ∧ 0 ≤ e.step_number ∧
          (∀ b, (none : Option Int) = some b → e.step_number ≤ b))) :=
  ⟨by decide, (C8_getEvents_ordered happyStore (by decide) 0 none).1⟩

theorem remaining_nonneg (nodes : List TaskNode) (P : List String) (nm : String) :
    0 ≤ remaining nodes P nm :=
  Int.natCast_nonneg _

theorem initIndeg_eq_remaining (nodes : List TaskNode) (nm : String) :
    initIndeg nodes nm = remaining nodes [] nm := by
  unfold initIndeg remaining depsOf
  cases h : nodes.find? (fun n => n.name = nm) with
  | none => simp
  | some n => simp

theorem remaining_zero_iff (nodes : List TaskNode) (P : List String) (nm : String) :
    remaining nodes P nm = 0 ↔ ∀ d ∈ depsOf nodes nm, d ∈ P := by
  unfold remaining
  rw [show ((0 : Int) = ((0 : Nat) : Int)) from rfl, Int.natCast_inj]
  rw [List.length_eq_zero, List.filter_eq_nil_iff]
  simp

theorem remaining_append_le (nodes : List TaskNode) (P Q : List String) (nm : String) :
    remaining nodes (P ++ Q) nm ≤ remaining nodes P nm := by
  unfold remaining
  rw [Int.ofNat_le]
  rw [← List.countP_eq_length_filter, ← List.countP_eq_length_filter]
  refine List.countP_mono_left ?_
  intro d _ hd
  simp only [decide_eq_true_eq, List.mem_append] at hd ⊢
  intro hmem
  exact hd (Or.inl hmem)

theorem remaining_append_zero (nodes : List TaskNode) (P Q : List String) (nm : String)
    (h : remaining nodes P nm = 0) : remaining nodes (P ++ Q) nm = 0 :=
  le_antisymm (h ▸ remaining_append_le nodes P Q nm) (remaining_nonneg nodes _ nm)

theorem remaining_pos_mem_names (nodes : List TaskNode) (P : List String) (nm : String)
    (h : remaining nodes P nm ≠ 0) : nm ∈ nodes.map TaskNode.name := by
  unfold remaining depsOf at h
  cases hf : nodes.find? (fun n => n.name = nm) with
  | none => rw [hf] at h; simp at h
  | some n =>
    have hmem := List.mem_of_find?_eq_some hf
    have hname : n.name = nm := by
      have := List.find?_some hf
      simpa using this
    exact hname ▸ List.mem_map_of_mem TaskNode.name hmem

theorem depsOf_of_mem (nodes : List TaskNode) (hnd : (nodes.map TaskNode.name).Nodup)
    (n : TaskNode) (hn : n ∈ nodes) : depsOf nodes n.name = n.dependencies := by
  induction nodes with
  | nil => cases hn
  | cons m ms ih =>
    rw [List.map_cons, List.nodup_cons] at hnd
    rcases List.mem_cons.mp hn with rfl | hn2
    · unfold depsOf
      simp [List.find?_cons]
    · have hne : ¬ (m.name = n.name) := by
        intro he
        exact hnd.1 (he ▸ List.mem_map_of_mem TaskNode.name hn2)
      unfold depsOf
      rw [List.find?_cons]
      simp only [hne, decide_False, Bool.false_eq_true, if_false, ite_false]
      exact ih hnd.2 hn2

theorem depOf_iff (nodes : List TaskNode) (hnd : (nodes.map TaskNode.name).Nodup)
    (x d : String) :
    depOf nodes x d ↔ x ∈ nodes.map TaskNode.name ∧ d ∈ depsOf nodes x := by
  constructor
  · rintro ⟨n, hn, rfl, hd⟩
    exact ⟨List.mem_map_of_mem TaskNode.name hn, (depsOf_of_mem nodes hnd n hn) ▸ hd⟩
  · rintro ⟨hx, hd⟩
    obtain ⟨n, hn, rfl⟩ := List.mem_map.mp hx
    exact ⟨n, hn, rfl, (depsOf_of_mem nodes hnd n hn) ▸ hd⟩

theorem mem_adjList (nodes : List TaskNode) (x nm : String)
    (h : nm ∈ adjList nodes x) : nm ∈ nodes.map TaskNode.name := by
  unfold adjList at h
  rw [List.mem_flatMap] at h
  obtain ⟨n, hn, hmem⟩ := h
  rw [List.eq_of_mem_replicate hmem]
  exact List.mem_map_of_mem TaskNode.name hn

theorem count_adjList (nodes : List TaskNode) (hnd : (nodes.map TaskNode.name).Nodup)
    (x nm : String) :
    (adjList nodes x).count nm = (depsOf nodes nm).count x := by
  induction nodes with
  | nil => simp [adjList, depsOf]
  | cons m ms ih =>
    rw [List.map_cons, List.nodup_cons] at hnd
    have hstep : adjList (m :: ms) x =
        List.replicate (m.dependencies.count x) m.name ++ adjList ms x := by
      unfold adjList; rw [List.flatMap_cons]
    rw [hstep, List.count_append, List.count_replicate]
    by_cases hname : m.name = nm
    · subst hname
      have htail : (adjList ms x).count m.name = 0 := by
        rw [List.count_eq_zero]
        intro hmem
        exact hnd.1 (mem_adjList ms x m.name hmem)
      rw [htail]
      have hdeps : depsOf (m :: ms) m.name = m.dependencies := by
        unfold depsOf; simp [List.find?_cons]
      rw [hdeps]
      simp
    · have hdeps : depsOf (m :: ms) nm = depsOf ms nm := by
        unfold depsOf
        rw [List.find?_cons]
        simp only [hname, decide_False, Bool.false_eq_true, if_false, ite_false]
      rw [hdeps, ← ih hnd.2]
      have hne : ¬ ((m.name == nm) = true) := by simpa using hname
      simp [hne]

theorem remaining_split (nodes : List TaskNode) (P : List String) (x nm : String)
    (hx : x ∉ P) :
    remaining nodes P nm =
      remaining nodes (P ++ [x]) nm + ((depsOf nodes nm).count x : Int) := by
  unfold remaining
  induction depsOf nodes nm with
  | nil => simp
  | cons d ds ih =>
    rw [List.filter_cons, List.filter_cons, List.count_cons]
    by_cases hdx : d = x
    · subst hdx
      rw [if_pos (by simpa using hx : decide (d ∉ P) = true)]
      rw [if_neg (by simp : ¬ (decide (d ∉ P ++ [d]) = true))]
      rw [if_pos (by simp : (d == d) = true)]
      simp only [List.length_cons]
      push_cast
      push_cast at ih
      omega
    · rw [show (decide (d ∉ P ++ [x])) = (decide (d ∉ P)) from by simp [hdx]]
      rw [if_neg (by simpa using hdx : ¬ ((d == x) = true))]
      by_cases hdP : d ∉ P
      · rw [if_pos (by simpa using hdP), if_pos (by simpa using hdP)]
        simp only [List.length_cons]
        push_cast
        push_cast at ih
        omega
      · rw [if_neg (by simpa using hdP), if_neg (by simpa using hdP)]
        simpa using ih

theorem processNeighbors_eq_decList (adj : String → List String) (nm : String)
    (st : (String → Int) × List String) :
    processNeighbors adj nm st = decList (adj nm) st := rfl

theorem decList_spec (L : List String) :
    ∀ (ind : String → Int) (out : List String),
    (∀ nm, (decList L (ind, out)).1 nm = ind nm - (L.count nm : Int))
    ∧ (∀ nm, nm ∈ (decList L (ind, out)).2 ↔
        nm ∈ out ∨ (1 ≤ ind nm ∧ ind nm ≤ (L.count nm : Int)))
    ∧ (out.Nodup → (∀ nm ∈ out, ¬(1 ≤ ind nm ∧ ind nm ≤ (L.count nm : Int))) →
        (decList L (ind, out)).2.Nodup) := by
  induction L with
  | nil =>
    intro ind out
    refine ⟨by simp [decList], ?_, by intro h _; simpa [decList] using h⟩
    intro nm
    simp only [decList, List.foldl_nil, List.count_nil, Nat.cast_zero]
    constructor
    · exact Or.inl
    · rintro (h | ⟨h1, h2⟩)
      · exact h
      · omega
  | cons nb L ih =>
    intro ind out
    have hstep : decList (nb :: L) (ind, out) =
        decList L (Function.update ind nb (ind nb - 1),
          if ind nb - 1 = 0 then out ++ [nb] else out) := by
      unfold decList
      rw [List.foldl_cons]
      by_cases h0 : ind nb - 1 = 0 <;> simp [h0]
    obtain ⟨ih1, ih2, ih3⟩ :=
      ih (Function.update ind nb (ind nb - 1)) (if ind nb - 1 = 0 then out ++ [nb] else out)
    refine ⟨?_, ?_, ?_⟩
    · intro nm
      rw [hstep, ih1 nm, Function.update_apply, List.count_cons]
      by_cases hmb : nm = nb
      · subst hmb
        simp only [eq_self_iff_true, if_true, ite_true, beq_self_eq_true,
          List.count_cons_self]
        push_cast
        omega
      · have hbeq : ¬ ((nb == nm) = true) := by simpa using Ne.symm hmb
        simp only [hmb, hbeq, if_false, ite_false]
        push_cast
        omega
    · intro nm
      rw [hstep, ih2 nm]
      by_cases hmb : nm = nb
      · subst hmb
        rw [Function.update_same]
        by_cases h0 : ind nm - 1 = 0
        · rw [if_pos h0]
          refine iff_of_true ?_ ?_
          · exact Or.inl (List.mem_append.mpr (Or.inr (List.mem_singleton.mpr rfl)))
          · refine Or.inr ⟨by omega, ?_⟩
            rw [List.count_cons_self]
            push_cast
            omega
        · rw [if_neg h0]
          refine or_congr_right ?_
          rw [List.count_cons_self]
          constructor <;> intro h <;> push_cast at h ⊢ <;> omega
      · rw [Function.update_noteq hmb]
        have hc : (nb :: L).count nm = L.count nm := by
          rw [List.count_cons]
          simp [hmb, Ne.symm hmb]
        rw [hc]
        by_cases h0 : ind nb - 1 = 0
        · rw [if_pos h0]
          simp only [List.mem_append, List.mem_singleton, hmb, or_false]
        · rw [if_neg h0]
    · intro hnd hdisj
      rw [hstep]
      refine ih3 ?_ ?_
      · by_cases h0 : ind nb - 1 = 0
        · rw [if_pos h0]
          rw [List.nodup_append]
          refine ⟨hnd, List.nodup_singleton nb, ?_⟩
          intro a ha hb
          rw [List.mem_singleton] at hb
          subst hb
          refine hdisj a ha ⟨by omega, ?_⟩
          rw [List.count_cons_self]
          push_cast
          omega
        · rw [if_neg h0]
          exact hnd
      · intro nm hm
        by_cases h0 : ind nb - 1 = 0
        · rw [if_pos h0] at hm
          rcases List.mem_append.mp hm with hm1 | hm1
          · by_cases hmb : nm = nb
            · subst hmb
              rw [Function.update_same, h0]
              rintro ⟨h1, -⟩
              omega
            · rw [Function.update_noteq hmb]
              have hd := hdisj nm hm1
              have hc : (nb :: L).count nm = L.count nm := by
                rw [List.count_cons]
                simp [hmb, Ne.symm hmb]
              rw [hc] at hd
              exact hd
          · rw [List.mem_singleton] at hm1
            subst hm1
            rw [Function.update_same, h0]
            rintro ⟨h1, -⟩
            omega
        · rw [if_neg h0] at hm
          by_cases hmb : nm = nb
          · subst hmb
            rw [Function.update_same]
            have hd := hdisj nm hm
            rw [List.count_cons_self] at hd
            intro hcon
            refine hd ⟨by omega, ?_⟩
            push_cast at hcon ⊢
            omega
          · rw [Function.update_noteq hmb]
            have hd := hdisj nm hm
            have hc : (nb :: L).count nm = L.count nm := by
              rw [List.count_cons]
              simp [hmb, Ne.symm hmb]
            rw [hc] at hd
            exact hd

theorem procStep (nodes : List TaskNode) (hnd : (nodes.map TaskNode.name).Nodup)
    (P : List String) (x : String) (hx : x ∉ P) (ind : String → Int)
    (out : List String) (hind : ∀ nm, ind nm = remaining nodes P nm) :
    (∀ nm, (processNeighbors (adjList nodes) x (ind, out)).1 nm =
        remaining nodes (P ++ [x]) nm)
    ∧ (∀ nm, nm ∈ (processNeighbors (adjList nodes) x (ind, out)).2 ↔
        nm ∈ out ∨ (1 ≤ remaining nodes P nm ∧ remaining nodes (P ++ [x]) nm = 0))
    ∧ (out.Nodup → (∀ nm ∈ out, remaining nodes P nm = 0) →
        (processNeighbors (adjList nodes) x (ind, out)).2.Nodup) := by
  have hcount : ∀ nm, ((adjList nodes x).count nm : Int) =
      remaining nodes P nm - remaining nodes (P ++ [x]) nm := by
    intro nm
    rw [count_adjList nodes hnd x nm]
    have := remaining_split nodes P x nm hx
    omega
  obtain ⟨h1, h2, h3⟩ := decList_spec (adjList nodes x) ind out
  rw [processNeighbors_eq_decList]
  refine ⟨?_, ?_, ?_⟩
  · intro nm
    rw [h1 nm, hind nm, hcount nm]
    omega
  · intro nm
    rw [h2 nm, hind nm, hcount nm]
    have hle := remaining_append_le nodes P [x] nm
    have hnn := remaining_nonneg nodes (P ++ [x]) nm
    refine or_congr_right ?_
    constructor <;> (rintro ⟨ha, hb⟩; exact ⟨ha, by omega⟩)
  · intro hndo hzero
    refine h3 hndo ?_
    intro nm hm
    rw [hind nm, hcount nm]
    have hz := hzero nm hm
    have hnn := remaining_nonneg nodes (P ++ [x]) nm
    rintro ⟨ha, hb⟩
    omega

theorem drainAux (nodes : List TaskNode) (hnd : (nodes.map TaskNode.name).Nodup)
    (P₀ : List String) :
    ∀ (q C : List String) (ind : String → Int) (out : List String),
    (∀ nm, ind nm = remaining nodes (P₀ ++ C) nm) →
    (((P₀ ++ C) ++ q).Nodup) →
    (∀ x ∈ q, remaining nodes P₀ x = 0) →
    (∀ nm, nm ∈ out ↔ 1 ≤ remaining nodes P₀ nm ∧ remaining nodes (P₀ ++ C) nm = 0) →
    out.Nodup →
    (∀ nm, (q.foldl (fun acc nm => processNeighbors (adjList nodes) nm acc) (ind, out)).1 nm
        = remaining nodes (P₀ ++ (C ++ q)) nm)
    ∧ (∀ nm, nm ∈ (q.foldl (fun acc nm =>
          processNeighbors (adjList nodes) nm acc) (ind, out)).2 ↔
        1 ≤ remaining nodes P₀ nm ∧ remaining nodes (P₀ ++ (C ++ q)) nm = 0)
    ∧ (q.foldl (fun acc nm => processNeighbors (adjList nodes) nm acc) (ind, out)).2.Nodup := by
  intro q
  induction q with
  | nil =>
    intro C ind out hind hnd2 hq hout hndo
    simp only [List.foldl_nil, List.append_nil]
    exact ⟨hind, hout, hndo⟩
  | cons x q ih =>
    intro C ind out hind hnd2 hq hout hndo
    rw [List.foldl_cons]
    have hx : x ∉ P₀ ++ C := by
      intro hmem
      rw [List.nodup_append] at hnd2
      exact hnd2.2.2 hmem (List.mem_cons_self x q)
    obtain ⟨p1, p2, p3⟩ := procStep nodes hnd (P₀ ++ C) x hx ind out hind
    have hzero : ∀ nm ∈ out, remaining nodes (P₀ ++ C) nm = 0 :=
      fun nm hm => ((hout nm).mp hm).2
    have hassoc : P₀ ++ (C ++ [x]) = (P₀ ++ C) ++ [x] := (List.append_assoc _ _ _).symm
    have hout2 : ∀ nm, nm ∈ (processNeighbors (adjList nodes) x (ind, out)).2 ↔
        1 ≤ remaining nodes P₀ nm ∧ remaining nodes (P₀ ++ (C ++ [x])) nm = 0 := by
      intro nm
      rw [p2 nm, hassoc]
      constructor
      · rintro (hm | ⟨h1, h2⟩)
        · obtain ⟨ha, hb⟩ := (hout nm).mp hm
          exact ⟨ha, remaining_append_zero nodes (P₀ ++ C) [x] nm hb⟩
        · refine ⟨?_, h2⟩
          have := remaining_append_le nodes P₀ C nm
          omega
      · rintro ⟨h1, h2⟩
        by_cases hz : remaining nodes (P₀ ++ C) nm = 0
        · exact Or.inl ((hout nm).mpr ⟨h1, hz⟩)
        · have := remaining_nonneg nodes (P₀ ++ C) nm
          exact Or.inr ⟨by omega, h2⟩
    have hind2 : ∀ nm, (processNeighbors (adjList nodes) x (ind, out)).1 nm =
        remaining nodes (P₀ ++ (C ++ [x])) nm := by
      intro nm
      rw [p1 nm, hassoc]
    have hnd3 : ((P₀ ++ (C ++ [x])) ++ q).Nodup := by
      rw [hassoc, List.append_assoc (P₀ ++ C) [x] q, List.singleton_append]
      exact hnd2
    obtain ⟨g1, g2, g3⟩ := ih (C ++ [x])
      (processNeighbors (adjList nodes) x (ind, out)).1
      (processNeighbors (adjList nodes) x (ind, out)).2
      hind2 hnd3 (fun y hy => hq y (List.mem_cons_of_mem x hy)) hout2
      (p3 hndo hzero)
    have hflat : C ++ x :: q = (C ++ [x]) ++ q := by
      rw [List.append_assoc, List.singleton_append]
    refine ⟨?_, ?_, ?_⟩
    · intro nm
      rw [hflat]
      exact g1 nm
    · intro nm
      rw [hflat]
      exact g2 nm
    · exact g3

theorem drainLevel_spec (nodes : List TaskNode) (hnd : (nodes.map TaskNode.name).Nodup)
    (P q : List String) (ind : String → Int)
    (hind : ∀ nm, ind nm = remaining nodes P nm)
    (hnd2 : (P ++ q).Nodup)
    (hq : ∀ x ∈ q, remaining nodes P x = 0) :
    (∀ nm, (drainLevel (adjList nodes) q ind).1 nm = remaining nodes (P ++ q) nm)
    ∧ (∀ nm, nm ∈ (drainLevel (adjList nodes) q ind).2 ↔
        1 ≤ remaining nodes P nm ∧ remaining nodes (P ++ q) nm = 0)
    ∧ (drainLevel (adjList nodes) q ind).2.Nodup := by
  have h := drainAux nodes hnd P q [] ind []
    (by intro nm; rw [List.append_nil]; exact hind nm)
    (by rwa [List.append_nil])
    hq
    (by
      intro nm
      rw [List.append_nil]
      refine iff_of_false (List.not_mem_nil nm) ?_
      rintro ⟨h1, h2⟩
      omega)
    List.nodup_nil
  rw [List.nil_append] at h
  exact h

theorem kahnLoop_spec (nodes : List TaskNode) (hnd : (nodes.map TaskNode.name).Nodup) :
    ∀ (fuel : Nat) (ind : String → Int) (queue : List String)
      (acc : List (List String)) (processed : Nat),
    (∀ nm, ind nm = remaining nodes acc.flatten nm) →
    ((acc.flatten ++ queue).Nodup) →
    (∀ x ∈ acc.flatten ++ queue, x ∈ nodes.map TaskNode.name) →
    (∀ x ∈ queue, remaining nodes acc.flatten x = 0) →
    (∀ x ∈ acc.flatten, remaining nodes acc.flatten x = 0) →
    (∀ nm ∈ nodes.map TaskNode.name, remaining nodes acc.flatten nm = 0 →
      nm ∈ acc.flatten ++ queue) →
    (processed = acc.flatten.length) →
    (∀ k x, x ∈ acc.getD k [] → ∀ d, d ∈ depsOf nodes x → d ∈ (acc.take k).flatten) →
    (nodes.length + 1 ≤ fuel + processed) →
    KahnOut nodes (kahnLoop (adjList nodes) fuel ind queue acc processed) := by
  intro fuel
  induction fuel with
  | zero =>
    intro ind queue acc processed hind hnd2 hmem hq hP hcomp hproc hlev hfuel
    exfalso
    rw [List.nodup_append] at hnd2
    have hsub : acc.flatten.Subperm (nodes.map TaskNode.name) :=
      List.subperm_of_subset hnd2.1 (fun x hx => hmem x (List.mem_append_left queue hx))
    have hlen := hsub.length_le
    rw [List.length_map] at hlen
    omega
  | succ fuel ih =>
    intro ind queue acc processed hind hnd2 hmem hq hP hcomp hproc hlev hfuel
    have hunf : kahnLoop (adjList nodes) (fuel + 1) ind queue acc processed =
        if queue.isEmpty then (acc, processed)
        else
          kahnLoop (adjList nodes) fuel (drainLevel (adjList nodes) queue ind).1
            (drainLevel (adjList nodes) queue ind).2 (acc ++ [queue])
            (processed + queue.length) := rfl
    rw [hunf]
    by_cases hqe : queue.isEmpty
    · rw [if_pos hqe]
      have hqnil : queue = [] := List.isEmpty_iff.mp hqe
      subst hqnil
      refine ⟨hproc, by rwa [List.append_nil] at hnd2, ?_, ?_, hlev⟩
      · intro x hx
        exact hmem x (List.mem_append_left [] hx)
      · intro nm hnm hz
        have := hcomp nm hnm hz
        rwa [List.append_nil] at this
    · rw [if_neg hqe]
      have hqne : queue ≠ [] := by
        intro h
        exact hqe (h ▸ rfl)
      obtain ⟨d1, d2, d3⟩ := drainLevel_spec nodes hnd acc.flatten queue ind hind hnd2 hq
      have hflat2 : (acc ++ [queue]).flatten = acc.flatten ++ queue := by
        rw [List.flatten_append]
        simp
      -- disjointness of the new queue from the drained prefix
      have hdisj : ∀ nm ∈ (drainLevel (adjList nodes) queue ind).2,
          nm ∉ acc.flatten ++ queue := by
        intro nm hm hmem2
        obtain ⟨h1, _h2⟩ := (d2 nm).mp hm
        rcases List.mem_append.mp hmem2 with hin | hin
        · have := hP nm hin
          omega
        · have := hq nm hin
          omega
      have hmem2 : ∀ x ∈ (drainLevel (adjList nodes) queue ind).2,
          x ∈ nodes.map TaskNode.name := by
        intro x hx
        obtain ⟨h1, _h2⟩ := (d2 x).mp hx
        exact remaining_pos_mem_names nodes acc.flatten x (by omega)
      have hP2 : ∀ x ∈ (acc ++ [queue]).flatten,
          remaining nodes (acc ++ [queue]).flatten x = 0 := by
        intro x hx
        rw [hflat2] at hx ⊢
        rcases List.mem_append.mp hx with hin | hin
        · exact remaining_append_zero nodes acc.flatten queue x (hP x hin)
        · exact remaining_append_zero nodes acc.flatten queue x (hq x hin)
      refine ih (drainLevel (adjList nodes) queue ind).1
        (drainLevel (adjList nodes) queue ind).2 (acc ++ [queue])
        (processed + queue.length) ?_ ?_ ?_ ?_ ?_ ?_ ?_ ?_ ?_
      · intro nm
        rw [hflat2]
        exact d1 nm
      · rw [hflat2, List.nodup_append]
        refine ⟨hnd2, d3, ?_⟩
        intro a ha hb
        exact hdisj a hb ha
      · intro x hx
        rw [hflat2] at hx
        rcases List.mem_append.mp hx with hin | hin
        · exact hmem x hin
        · exact hmem2 x hin
      · intro x hx
        rw [hflat2]
        exact ((d2 x).mp hx).2
      · exact hP2
      · intro nm hnm hz
        rw [hflat2] at hz ⊢
        by_cases h0 : remaining nodes acc.flatten nm = 0
        · exact List.mem_append_left _ (hcomp nm hnm h0)
        · have hnn := remaining_nonneg nodes acc.flatten nm
          refine List.mem_append_right _ ((d2 nm).mpr ⟨by omega, hz⟩)
      · rw [hflat2, List.length_append, hproc]
      · intro k x hx d hd
        by_cases hk : k < acc.length
        · rw [List.getD_append _ _ _ _ hk] at hx
          rw [List.take_append_of_le_length (le_of_lt hk)]
          exact hlev k x hx d hd
        · by_cases hk2 : k = acc.length
          · subst hk2
            rw [List.getD_append_right acc [queue] [] acc.length (le_refl _),
              Nat.sub_self] at hx
            have hx2 : x ∈ queue := by simpa using hx
            have hz := hq x hx2
            rw [remaining_zero_iff] at hz
            rw [List.take_left]
            exact hz d hd
          · have hge : (acc ++ [queue]).length ≤ k := by
              rw [List.length_append, List.length_singleton]
              omega
            rw [List.getD_eq_default _ _ hge] at hx
            cases hx
      · have hq1 : 1 ≤ queue.length := by
          cases queue with
          | nil => exact absurd rfl hqne
          | cons a l => simp
        omega

theorem chain'_last_or_succ (nodes : List TaskNode) :
    ∀ (l : List String), l.Chain' (depOf nodes) → ∀ x ∈ l,
      (∃ d ∈ l, depOf nodes x d) ∨ (∃ h : l ≠ [], x = l.getLast h) := by
  intro l
  induction l with
  | nil => intro _ x hx; cases hx
  | cons a l ih =>
    intro hch x hx
    cases l with
    | nil =>
      right
      refine ⟨List.cons_ne_nil a [], ?_⟩
      simpa using hx
    | cons b l2 =>
      rcases List.mem_cons.mp hx with rfl | hx2
      · exact Or.inl ⟨b, List.mem_cons_of_mem x (List.mem_cons_self b l2),
          (List.chain'_cons.mp hch).1⟩
      · rcases ih (List.chain'_cons.mp hch).2 x hx2 with ⟨d, hd, hdep⟩ | ⟨h, hlast⟩
        · exact Or.inl ⟨d, List.mem_cons_of_mem a hd, hdep⟩
        · right
          refine ⟨List.cons_ne_nil a (b :: l2), ?_⟩
          rw [List.getLast_cons h]
          exact hlast

theorem cycle_successor (nodes : List TaskNode) (c : List String)
    (hc : isCycle nodes c) : ∀ x ∈ c, ∃ d ∈ c, depOf nodes x d := by
  obtain ⟨hne, hchain, hwrap⟩ := hc
  intro x hx
  rcases chain'_last_or_succ nodes c hchain x hx with h | ⟨h, rfl⟩
  · exact h
  · exact ⟨c.head h, List.head_mem h, hwrap h⟩

theorem cycle_mem_names (nodes : List TaskNode) (c : List String)
    (hc : isCycle nodes c) : ∀ x ∈ c, x ∈ nodes.map TaskNode.name := by
  intro x hx
  obtain ⟨d, _hd, n, hn, rfl, _⟩ := cycle_successor nodes c hc x hx
  exact List.mem_map_of_mem TaskNode.name hn

theorem cycle_of_stuck (nodes : List TaskNode) (R : List String) (hne : R ≠ [])
    (hstep : ∀ x ∈ R, ∃ d, depOf nodes x d ∧ d ∈ R) : HasCycle nodes := by
  obtain ⟨x0, hx0⟩ := List.exists_mem_of_ne_nil R hne
  have key : ∀ i j : Nat, i < j →
      ∀ g : Nat → {x : String // x ∈ R},
      (∀ k, depOf nodes (g k).1 (g (k + 1)).1) →
      (g i).1 = (g j).1 → HasCycle nodes := by
    intro i j hlt g hg heq
    obtain ⟨m, hm⟩ : ∃ m, j - i = m + 1 := ⟨j - i - 1, by omega⟩
    refine ⟨(List.range (m + 1)).map (fun k => (g (i + k)).1), ?_, ?_, ?_⟩
    · exact fun h => by simpa using congrArg List.length h
    · rw [List.chain'_map, List.chain'_range_succ]
      intro k _hk
      exact hg (i + k)
    · intro hcne
      have hlast : ((List.range (m + 1)).map (fun k => (g (i + k)).1)).getLast hcne
          = (g (i + m)).1 := by
        have h1 : ((List.range (m + 1)).map (fun k => (g (i + k)).1)).getLast?
            = some ((g (i + m)).1) := by
          rw [List.range_succ, List.map_append, List.map_singleton, List.getLast?_concat]
        have h2 := List.getLast?_eq_getLast _ hcne
        rw [h2] at h1
        exact Option.some.inj h1
      have hhead : ((List.range (m + 1)).map (fun k => (g (i + k)).1)).head hcne
          = (g i).1 := by
        have h1 : ((List.range (m + 1)).map (fun k => (g (i + k)).1)).head?
            = some ((g (i + 0)).1) := by
          rw [List.range_succ_eq_map, List.map_cons]
          rfl
        have h2 := List.head?_eq_head hcne
        rw [h2] at h1
        have h3 := Option.some.inj h1
        simpa using h3
      rw [hlast, hhead]
      have hgm := hg (i + m)
      have hj : i + m + 1 = j := by omega
      rw [hj] at hgm
      rw [← heq] at hgm
      exact hgm
  let f : {x : String // x ∈ R} → {x : String // x ∈ R} :=
    fun x => ⟨(hstep x.1 x.2).choose, (hstep x.1 x.2).choose_spec.2⟩
  have hf : ∀ x : {x : String // x ∈ R}, depOf nodes x.1 (f x).1 :=
    fun x => (hstep x.1 x.2).choose_spec.1
  have hg : ∀ k, depOf nodes ((fun k => f^[k] ⟨x0, hx0⟩) k).1
      ((fun k => f^[k] ⟨x0, hx0⟩) (k + 1)).1 := by
    intro k
    have hit : f^[k + 1] (⟨x0, hx0⟩ : {x : String // x ∈ R})
        = f (f^[k] ⟨x0, hx0⟩) := Function.iterate_succ_apply' f k _
    simp only [hit]
    exact hf _
  have hmaps : ∀ k ∈ Finset.range (R.length + 1),
      ((fun k => f^[k] ⟨x0, hx0⟩) k).1 ∈ R.toFinset := by
    intro k _
    exact List.mem_toFinset.mpr (f^[k] ⟨x0, hx0⟩).2
  have hcard : R.toFinset.card < (Finset.range (R.length + 1)).card := by
    rw [Finset.card_range]
    exact Nat.lt_succ_of_le R.toFinset_card_le
  obtain ⟨i, hi, j, hj, hij, hgij⟩ :=
    Finset.exists_ne_map_eq_of_card_lt_of_maps_to hcard hmaps
  rcases lt_or_gt_of_ne hij with h | h
  · exact key i j h (fun k => f^[k] ⟨x0, hx0⟩) hg hgij
  · exact key j i h (fun k => f^[k] ⟨x0, hx0⟩) hg hgij.symm

theorem mem_flatten_getD (L : List (List String)) (x : String) :
    x ∈ L.flatten ↔ ∃ k, k < L.length ∧ x ∈ L.getD k [] := by
  rw [List.mem_flatten]
  constructor
  · rintro ⟨l, hl, hx⟩
    obtain ⟨k, hk, rfl⟩ := List.mem_iff_getElem.mp hl
    refine ⟨k, hk, ?_⟩
    rwa [List.getD_eq_getElem L [] hk]
  · rintro ⟨k, hk, hx⟩
    rw [List.getD_eq_getElem L [] hk] at hx
    exact ⟨L[k], List.getElem_mem hk, hx⟩

theorem kahn_entry (nodes : List TaskNode) (hnd : (nodes.map TaskNode.name).Nodup) :
    KahnOut nodes (kahnLoop (adjList nodes) (nodes.length + 1) (initIndeg nodes)
      ((nodes.map TaskNode.name).filter (fun nm => initIndeg nodes nm = 0)) [] 0) := by
  refine kahnLoop_spec nodes hnd (nodes.length + 1) (initIndeg nodes)
    ((nodes.map TaskNode.name).filter (fun nm => initIndeg nodes nm = 0)) [] 0
    ?_ ?_ ?_ ?_ ?_ ?_ rfl ?_ ?_
  · intro nm
    exact initIndeg_eq_remaining nodes nm
  · simp only [List.flatten_nil, List.nil_append]
    exact List.Nodup.filter _ hnd
  · intro x hx
    simp only [List.flatten_nil, List.nil_append] at hx
    exact List.mem_of_mem_filter hx
  · intro x hx
    have := List.of_mem_filter hx
    simp only [List.flatten_nil]
    rw [← initIndeg_eq_remaining]
    simpa using this
  · intro x hx
    simp only [List.flatten_nil] at hx
    cases hx
  · intro nm hnm hz
    simp only [List.flatten_nil, List.nil_append]
    refine List.mem_filter.mpr ⟨hnm, ?_⟩
    simp only [List.flatten_nil] at hz
    rw [← initIndeg_eq_remaining] at hz
    simpa using hz
  · intro k x hx
    have : ([] : List (List String)).getD k [] = [] :=
      List.getD_eq_default _ _ (Nat.zero_le k)
    rw [this] at hx
    cases hx
  · omega

theorem getExecutionOrder_unfold (nodes : List TaskNode) :
    getExecutionOrder nodes =
      (if (kahnLoop (adjList nodes) (nodes.length + 1) (initIndeg nodes)
          ((nodes.map TaskNode.name).filter (fun nm => initIndeg nodes nm = 0)) [] 0).2
          ≠ nodes.length
       then .error "Graph contains a cycle"
       else .ok (kahnLoop (adjList nodes) (nodes.length + 1) (initIndeg nodes)
          ((nodes.map TaskNode.name).filter (fun nm => initIndeg nodes nm = 0)) [] 0).1) :=
  rfl

theorem getExecutionOrder_ok (nodes : List TaskNode)
    (hnd : (nodes.map TaskNode.name).Nodup)
    (hdeps : ∀ n ∈ nodes, ∀ d ∈ n.dependencies, d ∈ nodes.map TaskNode.name)
    (hacyc : ¬ HasCycle nodes) :
    ∃ levels, getExecutionOrder nodes = .ok levels
      ∧ levels.flatten.Perm (nodes.map TaskNode.name)
      ∧ (∀ k x, x ∈ levels.getD k [] → ∀ d, depOf nodes x d →
          d ∈ (levels.take k).flatten) := by
  obtain ⟨w1, w2, w3, w4, w5⟩ := kahn_entry nodes hnd
  have hNsub : ∀ nm ∈ nodes.map TaskNode.name,
      nm ∈ (kahnLoop (adjList nodes) (nodes.length + 1) (initIndeg nodes)
        ((nodes.map TaskNode.name).filter (fun nm => initIndeg nodes nm = 0))
        [] 0).1.flatten := by
    by_contra hcon
    push_neg at hcon
    obtain ⟨y, hy, hyn⟩ := hcon
    refine hacyc (cycle_of_stuck nodes
      ((nodes.map TaskNode.name).filter (fun nm =>
        decide (nm ∉ (kahnLoop (adjList nodes) (nodes.length + 1) (initIndeg nodes)
          ((nodes.map TaskNode.name).filter (fun nm => initIndeg nodes nm = 0))
          [] 0).1.flatten))) ?_ ?_)
    · exact List.ne_nil_of_mem (List.mem_filter.mpr ⟨hy, by simpa using hyn⟩)
    · intro x hx
      have hxN := List.mem_of_mem_filter hx
      have hxnot := List.of_mem_filter hx
      rw [decide_eq_true_eq] at hxnot
      have hrem : remaining nodes (kahnLoop (adjList nodes) (nodes.length + 1)
          (initIndeg nodes) ((nodes.map TaskNode.name).filter
            (fun nm => initIndeg nodes nm = 0)) [] 0).1.flatten x ≠ 0 := by
        intro h0
        exact hxnot (w4 x hxN h0)
      have hnall : ¬ ∀ d ∈ depsOf nodes x,
          d ∈ (kahnLoop (adjList nodes) (nodes.length + 1) (initIndeg nodes)
            ((nodes.map TaskNode.name).filter (fun nm => initIndeg nodes nm = 0))
            [] 0).1.flatten := by
        intro hall
        exact hrem ((remaining_zero_iff nodes _ x).mpr hall)
      push_neg at hnall
      obtain ⟨d, hd, hdnot⟩ := hnall
      obtain ⟨n, hn, rfl⟩ := List.mem_map.mp hxN
      rw [depsOf_of_mem nodes hnd n hn] at hd
      refine ⟨d, ?_, ?_⟩
      · exact (depOf_iff nodes hnd n.name d).mpr
          ⟨hxN, by rw [depsOf_of_mem nodes hnd n hn]; exact hd⟩
      · exact List.mem_filter.mpr ⟨hdeps n hn d hd, by simpa using hdnot⟩
  have hsub1 := List.subperm_of_subset w2 w3
  have hsub2 := List.subperm_of_subset hnd hNsub
  have hperm := hsub1.perm_of_length_le hsub2.length_le
  have hlen : (kahnLoop (adjList nodes) (nodes.length + 1) (initIndeg nodes)
      ((nodes.map TaskNode.name).filter (fun nm => initIndeg nodes nm = 0))
      [] 0).2 = nodes.length := by
    rw [w1, hperm.length_eq, List.length_map]
  refine ⟨_, ?_, hperm, ?_⟩
  · rw [getExecutionOrder_unfold, if_neg (not_ne_iff.mpr hlen)]
  · intro k x hx d hdep
    exact w5 k x hx d ((depOf_iff nodes hnd x d).mp hdep).2

theorem getExecutionOrder_cycle (nodes : List TaskNode)
    (hnd : (nodes.map TaskNode.name).Nodup) (hcyc : HasCycle nodes) :
    getExecutionOrder nodes = .error "Graph contains a cycle" := by
  obtain ⟨w1, w2, w3, w4, w5⟩ := kahn_entry nodes hnd
  obtain ⟨c, hc⟩ := hcyc
  suffices hne2 : (kahnLoop (adjList nodes) (nodes.length + 1) (initIndeg nodes)
      ((nodes.map TaskNode.name).filter (fun nm => initIndeg nodes nm = 0))
      [] 0).2 ≠ nodes.length by
    rw [getExecutionOrder_unfold, if_pos hne2]
  intro hlen
  have hsub1 := List.subperm_of_subset w2 w3
  have e1 := w1
  rw [hlen] at e1
  have hperm := hsub1.perm_of_length_le
    (by rw [List.length_map]; exact le_of_eq e1)
  have hnolevel : ∀ k x, x ∈ (kahnLoop (adjList nodes) (nodes.length + 1)
      (initIndeg nodes) ((nodes.map TaskNode.name).filter
        (fun nm => initIndeg nodes nm = 0)) [] 0).1.getD k [] → x ∉ c := by
    intro k
    induction k using Nat.strong_induction_on with
    | _ k ih =>
      intro x hx hxc
      obtain ⟨d, hdc, hdep⟩ := cycle_successor nodes c hc x hxc
      have hd2 := ((depOf_iff nodes hnd x d).mp hdep).2
      have hdtake := w5 k x hx d hd2
      rw [mem_flatten_getD] at hdtake
      obtain ⟨k2, hk2, hdk⟩ := hdtake
      have hk2k : k2 < k := lt_of_lt_of_le hk2 (List.length_take_le k _)
      have hk2len : k2 < (kahnLoop (adjList nodes) (nodes.length + 1)
          (initIndeg nodes) ((nodes.map TaskNode.name).filter
            (fun nm => initIndeg nodes nm = 0)) [] 0).1.length := by
        rw [List.length_take] at hk2
        omega
      have hdk2 : d ∈ (kahnLoop (adjList nodes) (nodes.length + 1)
          (initIndeg nodes) ((nodes.map TaskNode.name).filter
            (fun nm => initIndeg nodes nm = 0)) [] 0).1.getD k2 [] := by
        rw [List.getD_eq_getElem _ [] hk2] at hdk
        rw [List.getElem_take] at hdk
        rwa [List.getD_eq_getElem _ [] hk2len]
      exact ih k2 hk2k d hdk2 hdc
  obtain ⟨x, hxc⟩ := List.exists_mem_of_ne_nil c hc.1
  have hxN := cycle_mem_names nodes c hc x hxc
  have hxflat := hperm.mem_iff.mpr hxN
  rw [mem_flatten_getD] at hxflat
  obtain ⟨k, hk, hxk⟩ := hxflat
  exact hnolevel k x hxk hxc

/-- C6: for every `TaskGraph` with unique node names whose dependencies all
name existing nodes and whose dependency relation is acyclic,
`get_execution_order()` returns a list of levels that partitions the node
names (the concatenation of the levels is a permutation of the duplicate-free
name list, so each node appears in exactly one level) such that every
dependency of a node appears in a strictly earlier level; and for every graph
containing a dependency cycle it raises `ValueError("Graph contains a
cycle")`. -/
theorem C6_getExecutionOrder_levels (nodes : List TaskNode)
    (hnd : (nodes.map TaskNode.name).Nodup) :
    ((∀ n ∈ nodes, ∀ d ∈ n.dependencies, d ∈ nodes.map TaskNode.name) →
      ¬ HasCycle nodes →
      ∃ levels, getExecutionOrder nodes = .ok levels
        ∧ levels.flatten.Perm (nodes.map TaskNode.name)
        ∧ (∀ k x, x ∈ levels.getD k [] → ∀ d, depOf nodes x d →
            d ∈ (levels.take k).flatten))
    ∧ (HasCycle nodes → getExecutionOrder nodes = .error "Graph contains a cycle") :=
  ⟨fun hdeps hacyc => getExecutionOrder_ok nodes hnd hdeps hacyc,
    fun hcyc => getExecutionOrder_cycle nodes hnd hcyc⟩

theorem C6_getExecutionOrder_levels_witness :
    (([⟨"a", ["b"]⟩, ⟨"b", ["a"]⟩] : List TaskNode).map TaskNode.name).Nodup ∧
    (HasCycle [⟨"a", ["b"]⟩, ⟨"b", ["a"]⟩] →
      getExecutionOrder [⟨"a", ["b"]⟩, ⟨"b", ["a"]⟩] =
        .error "Graph contains a cycle") :=
  ⟨by decide, (C6_getExecutionOrder_levels [⟨"a", ["b"]⟩, ⟨"b", ["a"]⟩] (by decide)).2⟩

end Oao
